import Mathlib

/-!
Shallow embedding of the makudoku constraint-propagation core
(src/types.rs, src/state.rs, src/constraints.rs, src/engine.rs; lib.rs
holds the same code in one file).

Conventions of the embedding:
* `Domain` values are the `u16` bitmasks of the source, represented as `Nat`.
  Left shifts that could overflow a `u16` are reduced `% 65536`; other
  operations (`&&&`, `|||`, `>>>`) cannot overflow.
* The undo trail (a Rust `Vec` pushed/popped at its end) is modelled as a
  list with the most recent entry first, so `push` is `cons` and `pop`
  takes the head.  The constraint queue (a `VecDeque` pushed at the back and
  popped at the front) is a list with the front first, so `push_back`
  appends and `pop_front` takes the head.
* Fallible operations return their result together with the state reached,
  mirroring `&mut` updates that survive an early `Err` return.  `todo!()`
  and other panics are modelled by a distinguished `panicked` outcome.
* The unbounded loops of `Engine::propagate` and `Engine::search` are
  modelled with an explicit fuel parameter plus wrappers that supply a
  sufficient fuel; fuel sufficiency is proved, which is exactly the
  termination property of the source loops.
-/

namespace Makudoku

abbrev Domain := Nat
abbrev CellIx := Nat

def N : Nat := 9
def NN : Nat := 81

def DIGITS_MASK : Domain := 0b1111111110
def EVEN_MASK : Domain := (1 <<< 2) ||| ((1 <<< 4) ||| ((1 <<< 6) ||| (1 <<< 8)))

def bit_of_digit (d : Nat) : Domain := 1 <<< d

/-- Model of `u16::count_ones`: the number of set bits among bits 0..15. -/
def count_ones (n : Nat) : Nat := ((List.range 16).filter n.testBit).length

inductive Solve
  | Solved
  | Progress
  | Stalled
deriving DecidableEq

/-- Result of `State::narrow` / `State::assign` (`Result<bool, Contradiction>`). -/
inductive NRes
  | ok (changed : Bool)
  | contradiction
deriving DecidableEq

/-- Result of a constraint rule (`Result<bool, Contradiction>`, plus the
`panicked` outcome modelling a Rust panic such as `todo!()` or a failed
`unwrap`). -/
inductive CRes
  | ok (changed : Bool)
  | contradiction
  | panicked
deriving DecidableEq

structure State where
  domains : List Domain
  trail : List (CellIx × Domain)
  queue : List Nat
deriving DecidableEq

def State.new : State := ⟨List.replicate NN DIGITS_MASK, [], []⟩

/-- `State::narrow` (state.rs lines 21-34). -/
def State.narrow (st : State) (i : CellIx) (mask : Domain) : NRes × State :=
  let old := st.domains.getD i 0
  let nw := old &&& mask
  if nw = 0 then (.contradiction, st)
  else if nw ≠ old then
    (.ok true,
      { st with domains := st.domains.set i nw, trail := (i, old) :: st.trail })
  else (.ok false, st)

/-- `State::assign` (state.rs lines 36-39); the `debug_assert!` is compiled
out in release builds and is not modelled. -/
def State.assign (st : State) (i : CellIx) (single : Domain) : NRes × State :=
  st.narrow i single

/-- Body of the `while self.trail.len() > trail_len` loop of
`State::backtrack_to`, acting on the trail and the domains. -/
def btAux (tl : Nat) : List (CellIx × Domain) → List Domain →
    List (CellIx × Domain) × List Domain
  | [], ds => ([], ds)
  | (i, old) :: rest, ds =>
    if rest.length + 1 > tl then btAux tl rest (ds.set i old)
    else ((i, old) :: rest, ds)

/-- `State::backtrack_to` (state.rs lines 41-46). -/
def State.backtrack_to (st : State) (tl : Nat) : State :=
  let p := btAux tl st.trail st.domains
  { st with trail := p.1, domains := p.2 }

/-- The constraint sum type (constraints.rs lines 3-8). The fixed-size
array `[CellIx; 9]` of `AllDifferent` is a function out of `Fin 9`. -/
inductive Constraint
  | AllDifferent (cells : Fin 9 → CellIx)
  | KropkiWhite (a b : CellIx)
  | KropkiBlack (a b : CellIx)
  | Thermo (cells : List CellIx)

def Constraint.isThermo : Constraint → Bool
  | .Thermo _ => true
  | _ => false

/-- `Constraint::scope` (constraints.rs lines 11-18). -/
def Constraint.scope : Constraint → List CellIx
  | .AllDifferent cells => (List.finRange 9).map cells
  | .KropkiWhite a b => [a, b]
  | .KropkiBlack a b => [a, b]
  | .Thermo cells => cells

/-- The 9 scope cells of an `AllDifferent`, in iteration order. -/
def adCells (cells : Fin 9 → CellIx) : List CellIx := (List.finRange 9).map cells

/-- Whether cell `i` still admits digit `d` in `st`. -/
def admits (st : State) (i : CellIx) (d : Nat) : Bool := (st.domains.getD i 0).testBit d

/-- The `count[d]` accumulator of the first pass of `propagate_all_diff`:
how many scope entries admit digit `d`. -/
def adCount (st : State) (cells : Fin 9 → CellIx) (d : Nat) : Nat :=
  ((adCells cells).filter (fun i => admits st i d)).length

/-- The `last_pos[d]` accumulator of the first pass of `propagate_all_diff`:
the last scope entry admitting digit `d`. -/
def adLastPos (st : State) (cells : Fin 9 → CellIx) (d : Nat) : Option CellIx :=
  ((adCells cells).filter (fun i => admits st i d)).getLast?

/-- The `taken` accumulator of the first pass of `propagate_all_diff`:
the union of the singleton domains of the scope. -/
def adTaken (st : State) (cells : Fin 9 → CellIx) : Domain :=
  (adCells cells).foldl
    (fun acc i =>
      if count_ones (st.domains.getD i 0) = 1 then acc ||| st.domains.getD i 0 else acc) 0

/-- The duplicate-singleton check of `propagate_all_diff` (constraints.rs
lines 58-71): some digit `d` in 1..=9 is admitted by at least two scope
entries and at least two scope entries have domain exactly `1 <<< d`. -/
def adDupCheck (st : State) (cells : Fin 9 → CellIx) : Bool :=
  (List.range' 1 9).any (fun d =>
    decide (2 ≤ adCount st cells d) &&
      decide (2 ≤ ((adCells cells).filter
        (fun i => st.domains.getD i 0 = 1 <<< d)).length))

/-- The hidden-single loop of `propagate_all_diff` (constraints.rs lines
73-81): for each digit counted exactly once, assign it to its last
admitting cell.  A `None` from `last_pos` would make the Rust `unwrap`
panic. -/
def adHidden (cnt : Nat → Nat) (lastp : Nat → Option CellIx) :
    List Nat → Bool → State → CRes × State
  | [], changed, st => (.ok changed, st)
  | d :: ds, changed, st =>
    if cnt d = 1 then
      match lastp d with
      | none => (.panicked, st)
      | some i =>
        match st.assign i (1 <<< d) with
        | (.ok c, st1) => adHidden cnt lastp ds (changed || c) st1
        | (.contradiction, st1) => (.contradiction, st1)
    else adHidden cnt lastp ds changed st

/-- The naked-single elimination loop of `propagate_all_diff`
(constraints.rs lines 83-94): remove the `taken` digits from every
non-singleton cell of the scope.  `!taken` on a `u16` is `65535 ^^^ taken`. -/
def adElim (taken : Domain) : List CellIx → Bool → State → CRes × State
  | [], changed, st => (.ok changed, st)
  | i :: is, changed, st =>
    let di := st.domains.getD i 0
    if count_ones di = 1 then adElim taken is changed st
    else
      match st.narrow i (di &&& (65535 ^^^ taken)) with
      | (.ok c, st1) => adElim taken is (changed || c) st1
      | (.contradiction, st1) => (.contradiction, st1)

/-- `propagate_all_diff` (constraints.rs lines 32-97). -/
def propagate_all_diff (st : State) (cells : Fin 9 → CellIx) : CRes × State :=
  if (adCells cells).any (fun i => st.domains.getD i 0 == 0) then (.contradiction, st)
  else if adDupCheck st cells then (.contradiction, st)
  else
    match adHidden (adCount st cells) (adLastPos st cells) (List.range' 1 9) false st with
    | (.ok changed, st1) =>
      let taken := adTaken st cells
      if taken ≠ 0 then adElim taken (adCells cells) changed st1
      else (.ok changed, st1)
    | (.contradiction, st1) => (.contradiction, st1)
    | (.panicked, st1) => (.panicked, st1)

/-- Narrow `a` by `maskA`, then `b` by `maskB`, with the early return on
contradiction and the or-combination of the change flags: the common tail
of both Kropki propagators (constraints.rs lines 105-112 and 129-136). -/
def narrowPair (st : State) (a : CellIx) (maskA : Domain) (b : CellIx)
    (maskB : Domain) : CRes × State :=
  match st.narrow a maskA with
  | (.contradiction, st1) => (.contradiction, st1)
  | (.ok ca, st1) =>
    match st1.narrow b maskB with
    | (.contradiction, st2) => (.contradiction, st2)
    | (.ok cb, st2) => (.ok (ca || cb), st2)

/-- `propagate_kropki_white` (constraints.rs lines 99-113). -/
def propagate_kropki_white (st : State) (a b : CellIx) : CRes × State :=
  let da := st.domains.getD a 0
  let db := st.domains.getD b 0
  let reach_from_b := (((db <<< 1) % 65536) ||| (db >>> 1)) &&& DIGITS_MASK
  let reach_from_a := (((da <<< 1) % 65536) ||| (da >>> 1)) &&& DIGITS_MASK
  narrowPair st a reach_from_b b reach_from_a

/-- `propagate_kropki_black` (constraints.rs lines 115-137). -/
def propagate_kropki_black (st : State) (a b : CellIx) : CRes × State :=
  let da := st.domains.getD a 0
  let db := st.domains.getD b 0
  let double_from_b := ((db <<< 1) % 65536) &&& DIGITS_MASK
  let evens_in_b := db &&& EVEN_MASK
  let half_from_b := (evens_in_b >>> 1) &&& DIGITS_MASK
  let reach_from_b := (double_from_b ||| half_from_b) &&& DIGITS_MASK
  let double_from_a := ((da <<< 1) % 65536) &&& DIGITS_MASK
  let evens_in_a := da &&& EVEN_MASK
  let half_from_a := (evens_in_a >>> 1) &&& DIGITS_MASK
  let reach_from_a := (double_from_a ||| half_from_a) &&& DIGITS_MASK
  narrowPair st a reach_from_b b reach_from_a

/-- `Constraint::propagate` (constraints.rs lines 20-29).  The `Thermo`
variant falls into the `_ => todo!()` arm, which panics. -/
def Constraint.propagate (c : Constraint) (st : State) : CRes × State :=
  match c with
  | .AllDifferent cells => propagate_all_diff st cells
  | .KropkiWhite a b => propagate_kropki_white st a b
  | .KropkiBlack a b => propagate_kropki_black st a b
  | .Thermo _ => (.panicked, st)

structure Engine where
  state : State
  constraints : List Constraint
  watchers : List (List Nat)
  branches : Nat

def Engine.new : Engine := ⟨State.new, [], List.replicate NN [], 0⟩

/-- `Engine::add_constraint` (engine.rs lines 23-29). -/
def Engine.add_constraint (e : Engine) (c : Constraint) : Engine :=
  let idx := e.constraints.length
  let ws := c.scope.foldl (fun ws i => ws.set i ((ws.getD i []) ++ [idx])) e.watchers
  { e with watchers := ws, constraints := e.constraints ++ [c] }

/-- `Engine::enqueue_all` (engine.rs lines 31-35). -/
def Engine.enqueue_all (e : Engine) : Engine :=
  { e with state :=
    { e.state with queue := e.state.queue ++ List.range e.constraints.length } }

/-- `Engine::enqueue_cell_constraints` (engine.rs lines 37-41). -/
def Engine.enqueue_cell_constraints (e : Engine) (i : CellIx) : Engine :=
  { e with state := { e.state with queue := e.state.queue ++ e.watchers.getD i [] } }

/-- Result of `Engine::propagate` (`Result<Solve, Contradiction>` with the
panic and the fuel-exhaustion markers). -/
inductive POut
  | ok (s : Solve)
  | contradiction
  | panicked
  | fuelOut
deriving DecidableEq

/-- Re-enqueue the watchers of every cell in the scope of constraint `c`
(engine.rs lines 49-54). -/
def Engine.reEnqueue (e : Engine) (c : Constraint) : Engine :=
  { e with state :=
    { e.state with queue :=
        e.state.queue ++ c.scope.flatMap (fun j => e.watchers.getD j []) } }

/-- Fuel-indexed form of the drain loop of `Engine::propagate` (engine.rs
lines 43-62); `any` is the progress accumulator.  An out-of-range queue
entry would panic the Rust indexing `self.constraints[ci]`. -/
def propagateFuel : Nat → Engine → Bool → POut × Engine
  | 0, e, _ => (.fuelOut, e)
  | f + 1, e, any =>
    match e.state.queue with
    | [] => (.ok (if any then .Progress else .Stalled), e)
    | ci :: rest =>
      let e1 : Engine := { e with state := { e.state with queue := rest } }
      match e1.constraints[ci]? with
      | none => (.panicked, e1)
      | some c =>
        match c.propagate e1.state with
        | (.ok changed, st1) =>
          let e2 := { e1 with state := st1 }
          let e3 := if changed then e2.reEnqueue c else e2
          propagateFuel f e3 (any || changed)
        | (.contradiction, st1) => (.contradiction, { e1 with state := st1 })
        | (.panicked, st1) => (.panicked, { e1 with state := st1 })

/-- Sum of all domain values; strictly decreases whenever any `narrow`
reports a change, which bounds the drain loop. -/
def totalVal (st : State) : Nat := st.domains.sum

/-- Number of queue entries one change to constraint `c` re-enqueues. -/
def scopeW (e : Engine) (c : Constraint) : Nat :=
  (c.scope.map (fun j => (e.watchers.getD j []).length)).sum

def watchW (e : Engine) : Nat := (e.constraints.map (scopeW e)).sum

def propBound (e : Engine) : Nat :=
  e.state.queue.length + totalVal e.state * watchW e + 1

/-- `Engine::propagate`: the drain loop run with a provably sufficient
fuel. -/
def Engine.propagate (e : Engine) : POut × Engine :=
  propagateFuel (propBound e) e false

/-- `Engine::solved` (engine.rs lines 93-95). -/
def Engine.solved (e : Engine) : Bool :=
  e.state.domains.all (fun m => count_ones m == 1)

/-- The scan loop of `Engine::choose_mrv` (engine.rs lines 98-112),
carrying the `best` accumulator. -/
def mrvGo (doms : List Domain) : List Nat → Option (Nat × Nat) → Option (Nat × Nat)
  | [], best => best
  | i :: rest, best =>
    let cnt := count_ones (doms.getD i 0)
    if 1 < cnt then
      match best with
      | none => mrvGo doms rest (some (i, cnt))
      | some (bi, bc) =>
        if cnt < bc then mrvGo doms rest (some (i, cnt))
        else mrvGo doms rest (some (bi, bc))
    else mrvGo doms rest best

/-- `Engine::choose_mrv`. -/
def Engine.choose_mrv (e : Engine) : Option CellIx :=
  (mrvGo e.state.domains (List.range NN) none).map Prod.fst

/-- Errors of `Engine::load_givens`, with the data the formatted strings
carry: the wrong length, the offending position and byte, or the fixed
message for inconsistent givens (both `contradiction from givens` sites). -/
inductive GivensErr
  | needChars (got : Nat)
  | invalidChar (pos : Nat) (c : Nat)
  | givensContradiction
deriving DecidableEq

inductive LRes
  | ok
  | err (e : GivensErr)
  | panicked
deriving DecidableEq

/-- The non-whitespace bytes of the input (`ch as u8` truncates the scalar
value).  `Char.isWhitespace` stands in for Rust `char::is_whitespace`. -/
def givensBytes (s : List Char) : List Nat :=
  (s.filter (fun ch => !ch.isWhitespace)).map (fun ch => ch.toNat % 256)

/-- The per-character loop of `Engine::load_givens` (engine.rs lines
73-86) over `(index, byte)` pairs: 46 is the dot, 48-57 are the ASCII
digits. -/
def loadLoop : List (Nat × Nat) → Engine → LRes × Engine
  | [], e => (.ok, e)
  | (i, ch) :: rest, e =>
    if ch == 46 || ch == 48 then loadLoop rest e
    else if !(49 ≤ ch && ch ≤ 57) then (.err (.invalidChar i ch), e)
    else
      match e.state.assign i (bit_of_digit (ch - 48)) with
      | (.contradiction, st1) => (.err .givensContradiction, { e with state := st1 })
      | (.ok _, st1) =>
        loadLoop rest ((Engine.enqueue_cell_constraints { e with state := st1 } i))

/-- `Engine::load_givens` (engine.rs lines 64-91).  The `fuelOut` outcome
of the bounded drain is mapped to `panicked`; it is unreachable because
`propBound` is sufficient fuel. -/
def Engine.load_givens (e : Engine) (s : List Char) : LRes × Engine :=
  let bytes := givensBytes s
  if bytes.length ≠ NN then (.err (.needChars bytes.length), e)
  else
    match loadLoop bytes.enum e with
    | (.ok, e1) =>
      match e1.propagate with
      | (.ok _, e2) => (.ok, e2)
      | (.contradiction, e2) => (.err .givensContradiction, e2)
      | (.panicked, e2) => (.panicked, e2)
      | (.fuelOut, e2) => (.panicked, e2)
    | (.err ge, e1) => (.err ge, e1)
    | (.panicked, e1) => (.panicked, e1)

/-- Result of `Engine::search` (`Result<bool, Contradiction>` with the
panic and the fuel-exhaustion markers). -/
inductive SRes
  | ret (r : NRes)
  | panicked
  | fuelOut
deriving DecidableEq

inductive LOut
  | ret (r : SRes)
  | broke
deriving DecidableEq

/-- The `loop { match self.propagate() ... } }` head of `Engine::search`
(engine.rs lines 119-136), fuel-indexed. -/
def searchLoop : Nat → Engine → LOut × Engine
  | 0, e => (.ret .fuelOut, e)
  | f + 1, e =>
    match e.propagate with
    | (.ok .Progress, e1) =>
      if e1.solved then (.ret (.ret (.ok true)), e1) else searchLoop f e1
    | (.ok .Solved, e1) => (.broke, e1)
    | (.ok .Stalled, e1) => (.broke, e1)
    | (.contradiction, e1) => (.ret (.ret (.ok false)), e1)
    | (.panicked, e1) => (.ret .panicked, e1)
    | (.fuelOut, e1) => (.ret .fuelOut, e1)

/-- A pending activation of `Engine::search`: either entry into the
function body, or the branch loop over the remaining candidate digits
`ds` of cell `i` with saved checkpoint `tl` (engine.rs lines 155-179). -/
inductive Frame
  | enter (e : Engine)
  | branch (i tl : Nat) (ds : List Nat) (e : Engine)

def Frame.engine : Frame → Engine
  | .enter e => e
  | .branch _ _ _ e => e

/-- Fuel-indexed interpreter of `Engine::search` (engine.rs lines
114-182).  The candidate digits of the chosen cell are its set bits in
increasing order, as produced by the `trailing_zeros` loop. -/
def searchStep : Nat → Frame → SRes × Engine
  | 0, fr => (.fuelOut, fr.engine)
  | f + 1, .enter e =>
    let e := if e.state.trail.isEmpty && e.state.queue.isEmpty then e.enqueue_all else e
    match searchLoop (f + 1) e with
    | (.ret r, e1) => (r, e1)
    | (.broke, e1) =>
      if e1.solved then (.ret (.ok true), e1)
      else if e1.state.domains.any (fun m => m == 0) then (.ret (.ok false), e1)
      else
        match e1.choose_mrv with
        | none => (.ret (.ok true), e1)
        | some i =>
          let dom := e1.state.domains.getD i 0
          searchStep f (.branch i e1.state.trail.length
            ((List.range 16).filter (fun d => dom.testBit d)) e1)
  | _ + 1, .branch _ _ [] e => (.ret (.ok false), e)
  | f + 1, .branch i tl (d :: ds) e =>
    let e := { e with branches := e.branches + 1 }
    match e.state.assign i (bit_of_digit d) with
    | (.ok _, st1) =>
      let e1 := Engine.enqueue_cell_constraints { e with state := st1 } i
      match searchStep f (.enter e1) with
      | (.ret (.ok true), e2) => (.ret (.ok true), e2)
      | (.fuelOut, e2) => (.fuelOut, e2)
      | (.panicked, e2) => (.panicked, e2)
      | (_, e2) =>
        searchStep f (.branch i tl ds { e2 with state := e2.state.backtrack_to tl })
    | (.contradiction, st1) =>
      searchStep f (.branch i tl ds
        { e with state := st1.backtrack_to tl })

def searchBound (e : Engine) : Nat := 20 * totalVal e.state + 20

/-- `Engine::search`: the recursive search run with a provably sufficient
fuel. -/
def Engine.search (e : Engine) : SRes × Engine :=
  searchStep (searchBound e) (.enter e)

/-! ### Concrete fixtures used by witnesses and counterexamples -/

/-- The scope `[0,1,...,8]`, the first row. -/
def c9 : Fin 9 → CellIx := fun j => j.val

/-- A board whose cell 0 admits digits 3 and 8 and whose cell 1 is fixed
to digit 4; all other cells are full. -/
def kbState : State :=
  ⟨((1 <<< 3) ||| (1 <<< 8)) :: (1 <<< 4) :: List.replicate 79 DIGITS_MASK, [], []⟩

/-- An engine whose only registered constraint is a `Thermo`. -/
def thermoEngine : Engine := Engine.new.add_constraint (.Thermo [])

/-- A board with every cell already fixed to digit 1. -/
def singState : State := ⟨List.replicate NN (1 <<< 1), [], []⟩

/-- An engine with no constraints over an already fully assigned board. -/
def singEngine : Engine := { Engine.new with state := singState }

/-! ### Basic list lemmas -/

theorem set_getD_self (l : List Nat) (i : Nat) : l.set i (l.getD i 0) = l := by
  induction l generalizing i with
  | nil => rfl
  | cons a l ih =>
    cases i with
    | zero => rfl
    | succ j => simpa using ih j

theorem sum_set_add (l : List Nat) (i v : Nat) (h : i < l.length) :
    (l.set i v).sum + l.getD i 0 = l.sum + v := by
  induction l generalizing i with
  | nil => simp at h
  | cons a l ih =>
    cases i with
    | zero => simp [Nat.add_comm, Nat.add_left_comm, Nat.add_assoc]
    | succ j =>
      have hj : j < l.length := by simpa using h
      have h2 := ih j hj
      simp only [List.set, List.sum_cons, List.getD_cons_succ]
      omega

theorem sum_set_le (l : List Nat) (i v : Nat) (h : v ≤ l.getD i 0) :
    (l.set i v).sum ≤ l.sum := by
  by_cases hi : i < l.length
  · have := sum_set_add l i v hi
    omega
  · rw [List.set_eq_of_length_le (Nat.le_of_not_lt hi)]

theorem sum_set_lt (l : List Nat) (i v : Nat) (hi : i < l.length)
    (h : v < l.getD i 0) : (l.set i v).sum < l.sum := by
  have := sum_set_add l i v hi
  omega

theorem mem_set_elim {l : List Nat} {i v : Nat} {x : Nat}
    (h : x ∈ l.set i v) : x = v ∨ x ∈ l := by
  induction l generalizing i with
  | nil => simp at h
  | cons a l ih =>
    cases i with
    | zero =>
      rcases List.mem_cons.mp h with h | h
      · exact Or.inl h
      · exact Or.inr (List.mem_cons_of_mem _ h)
    | succ j =>
      rcases List.mem_cons.mp h with h | h
      · exact Or.inr (h ▸ List.mem_cons_self _ _)
      · rcases ih h with h | h
        · exact Or.inl h
        · exact Or.inr (List.mem_cons_of_mem _ h)

theorem two_le_length_of_mem_ne {α : Type} {a b : α} {l : List α}
    (ha : a ∈ l) (hb : b ∈ l) (hne : a ≠ b) : 2 ≤ l.length := by
  match l with
  | [] => simp at ha
  | [x] =>
    simp at ha hb
    exact absurd (ha.trans hb.symm) hne
  | _ :: _ :: _ => simp [Nat.succ_le_succ]

/-! ### `State.narrow` case lemmas -/

theorem narrow_empty {st : State} {i : CellIx} {mask : Domain}
    (h : st.domains.getD i 0 &&& mask = 0) :
    st.narrow i mask = (.contradiction, st) := by
  simp only [State.narrow]
  rw [if_pos h]

theorem narrow_changed {st : State} {i : CellIx} {mask : Domain}
    (h0 : st.domains.getD i 0 &&& mask ≠ 0)
    (hne : st.domains.getD i 0 &&& mask ≠ st.domains.getD i 0) :
    st.narrow i mask =
      (.ok true,
        { st with domains := st.domains.set i (st.domains.getD i 0 &&& mask),
                  trail := (i, st.domains.getD i 0) :: st.trail }) := by
  simp only [State.narrow]
  rw [if_neg h0, if_pos hne]

theorem narrow_same {st : State} {i : CellIx} {mask : Domain}
    (h0 : st.domains.getD i 0 &&& mask ≠ 0)
    (heq : st.domains.getD i 0 &&& mask = st.domains.getD i 0) :
    st.narrow i mask = (.ok false, st) := by
  simp only [State.narrow]
  rw [if_neg h0, if_neg (by simpa using heq)]

/-- Exhaustive case split on the outcome of a `narrow`. -/
theorem narrow_rec {st : State} {i : CellIx} {mask : Domain} {r : NRes} {st1 : State}
    (h : st.narrow i mask = (r, st1))
    {motive : Prop}
    (hcontra : st.domains.getD i 0 &&& mask = 0 → r = .contradiction → st1 = st → motive)
    (htrue : st.domains.getD i 0 &&& mask ≠ 0 →
      st.domains.getD i 0 &&& mask ≠ st.domains.getD i 0 → r = .ok true →
      st1 = { st with domains := st.domains.set i (st.domains.getD i 0 &&& mask),
                      trail := (i, st.domains.getD i 0) :: st.trail } → motive)
    (hfalse : st.domains.getD i 0 &&& mask ≠ 0 →
      st.domains.getD i 0 &&& mask = st.domains.getD i 0 → r = .ok false → st1 = st →
      motive) : motive := by
  by_cases h0 : st.domains.getD i 0 &&& mask = 0
  · rw [narrow_empty h0] at h
    simp only [Prod.mk.injEq] at h
    exact hcontra h0 h.1.symm h.2.symm
  · by_cases heq : st.domains.getD i 0 &&& mask = st.domains.getD i 0
    · rw [narrow_same h0 heq] at h
      simp only [Prod.mk.injEq] at h
      exact hfalse h0 heq h.1.symm h.2.symm
    · rw [narrow_changed h0 heq] at h
      simp only [Prod.mk.injEq] at h
      exact htrue h0 heq h.1.symm h.2.symm

theorem narrow_queue {st : State} {i : CellIx} {mask : Domain} {r : NRes} {st1 : State}
    (h : st.narrow i mask = (r, st1)) : st1.queue = st.queue := by
  refine narrow_rec h ?_ ?_ ?_ <;> intros <;> subst_vars <;> rfl

theorem narrow_domlen {st : State} {i : CellIx} {mask : Domain} {r : NRes} {st1 : State}
    (h : st.narrow i mask = (r, st1)) : st1.domains.length = st.domains.length := by
  refine narrow_rec h ?_ ?_ ?_ <;> intros <;> subst_vars <;> simp

theorem narrow_not_changed {st : State} {i : CellIx} {mask : Domain} {r : NRes} {st1 : State}
    (h : st.narrow i mask = (r, st1)) (hr : r ≠ .ok true) : st1 = st := by
  refine narrow_rec h ?_ ?_ ?_ <;> intros <;> subst_vars <;> first | rfl | exact absurd rfl hr

theorem narrow_trail_grows {st : State} {i : CellIx} {mask : Domain} {r : NRes} {st1 : State}
    (h : st.narrow i mask = (r, st1)) :
    st1.trail = st.trail ∨
      st1.trail = (i, st.domains.getD i 0) :: st.trail := by
  refine narrow_rec h ?_ ?_ ?_ <;> intros <;> subst_vars <;> simp

theorem getD_set_self (l : List Nat) (i v : Nat) (hi : i < l.length) :
    (l.set i v).getD i 0 = v := by
  induction l generalizing i with
  | nil => simp at hi
  | cons a l ih =>
    cases i with
    | zero => rfl
    | succ j => exact ih j (by simpa using hi)

theorem getD_set_ne (l : List Nat) {i j : Nat} (v : Nat) (hij : i ≠ j) :
    (l.set i v).getD j 0 = l.getD j 0 := by
  induction l generalizing i j with
  | nil => simp
  | cons a l ih =>
    cases i with
    | zero =>
      cases j with
      | zero => exact absurd rfl hij
      | succ k => rfl
    | succ i2 =>
      cases j with
      | zero => rfl
      | succ k => exact ih (fun hh => hij (by omega))

theorem narrow_changed_lt {st : State} {i : CellIx} {mask : Domain} {st1 : State}
    (h : st.narrow i mask = (.ok true, st1)) : totalVal st1 < totalVal st := by
  refine narrow_rec h (fun h0 hr hst => by simp at hr)
    (fun h0 hne hr hst => ?_) (fun h0 heq hr hst => by simp at hr)
  subst hst
  have hlt : st.domains.getD i 0 &&& mask < st.domains.getD i 0 :=
    Nat.lt_of_le_of_ne (Nat.and_le_left) hne
  have hi : i < st.domains.length := by
    by_contra hk
    have hz : st.domains.getD i 0 = 0 :=
      List.getD_eq_default _ _ (Nat.le_of_not_lt hk)
    rw [hz] at hlt
    exact Nat.not_lt_zero _ hlt
  exact sum_set_lt _ _ _ hi hlt

theorem narrow_totalVal_le {st : State} {i : CellIx} {mask : Domain} {r : NRes} {st1 : State}
    (h : st.narrow i mask = (r, st1)) : totalVal st1 ≤ totalVal st := by
  match r with
  | .ok true => exact Nat.le_of_lt (narrow_changed_lt h)
  | .ok false => rw [narrow_not_changed h (by simp)]
  | .contradiction => rw [narrow_not_changed h (by simp)]

theorem narrow_shrink {st : State} {i : CellIx} {mask : Domain} {r : NRes} {st1 : State}
    (h : st.narrow i mask = (r, st1)) (j b : Nat)
    (hb : (st1.domains.getD j 0).testBit b) : (st.domains.getD j 0).testBit b := by
  refine narrow_rec h (fun h0 hr hst => by subst hst; exact hb)
    (fun h0 hne hr hst => ?_) (fun h0 heq hr hst => by subst hst; exact hb)
  subst hst
  rcases eq_or_ne i j with rfl | hji
  · by_cases hi : i < st.domains.length
    · rw [getD_set_self _ _ _ hi] at hb
      simp only [Nat.testBit_and, Bool.and_eq_true] at hb
      exact hb.1
    · rw [List.set_eq_of_length_le (Nat.le_of_not_lt hi)] at hb
      exact hb
  · rwa [getD_set_ne _ _ hji] at hb

/-! ### `State.backtrack_to` lemmas -/

theorem btAux_of_le {tl : Nat} {tr : List (CellIx × Domain)} {ds : List Domain}
    (h : tr.length ≤ tl) : btAux tl tr ds = (tr, ds) := by
  match tr with
  | [] => rfl
  | (i, old) :: rest =>
    simp only [btAux]
    rw [if_neg]
    simpa using h

theorem btAux_comp (k l : Nat) (hkl : k ≤ l) (tr : List (CellIx × Domain))
    (ds : List Domain) :
    btAux k (btAux l tr ds).1 (btAux l tr ds).2 = btAux k tr ds := by
  induction tr generalizing ds with
  | nil => rfl
  | cons p rest ih =>
    obtain ⟨i, old⟩ := p
    by_cases hl : rest.length + 1 > l
    · have hk : rest.length + 1 > k := lt_of_le_of_lt hkl hl
      simp only [btAux, if_pos hl, if_pos hk]
      exact ih _
    · have hle : rest.length + 1 ≤ l := Nat.le_of_not_lt hl
      simp only [btAux, if_neg hl]

theorem backtrack_to_of_le {st : State} {k : Nat} (h : st.trail.length ≤ k) :
    st.backtrack_to k = st := by
  simp only [State.backtrack_to, btAux_of_le h]

/-- A successful or failed `narrow` commutes with restoring to any
checkpoint at or below the current trail length. -/
theorem narrow_btAux {st : State} {i : CellIx} {mask : Domain} {r : NRes} {st1 : State}
    (h : st.narrow i mask = (r, st1)) (k : Nat) (hk : k ≤ st.trail.length) :
    btAux k st1.trail st1.domains = btAux k st.trail st.domains := by
  refine narrow_rec h (fun h0 hr hst => by rw [hst])
    (fun h0 hne hr hst => ?_) (fun h0 heq hr hst => by rw [hst])
  subst hst
  simp only [btAux, if_pos (Nat.lt_succ_of_le hk)]
  rw [List.set_set, set_getD_self]

/-! ### Claim C3: the narrow contract -/

/-- C3.  For every state, cell index in range and mask, `narrow` computes
the bitwise intersection of the stored domain with the mask; if it is
empty it fails with a contradiction leaving domain, trail and queue
unchanged; if it differs from the old domain it pushes `(i, old)` on the
trail, stores it and reports a change; if it equals the old domain it
reports no change and pushes nothing. -/
theorem narrow_contract (st : State) (i : CellIx) (mask : Domain)
    (_hlen : st.domains.length = NN) (_hi : i < NN) :
    (∀ b : Nat, ((st.domains.getD i 0 &&& mask).testBit b ↔
      ((st.domains.getD i 0).testBit b ∧ mask.testBit b))) ∧
    (st.domains.getD i 0 &&& mask = 0 →
      st.narrow i mask = (.contradiction, st)) ∧
    (st.domains.getD i 0 &&& mask ≠ 0 →
      st.domains.getD i 0 &&& mask ≠ st.domains.getD i 0 →
      st.narrow i mask = (.ok true,
        { st with domains := st.domains.set i (st.domains.getD i 0 &&& mask),
                  trail := (i, st.domains.getD i 0) :: st.trail })) ∧
    (st.domains.getD i 0 &&& mask ≠ 0 →
      st.domains.getD i 0 &&& mask = st.domains.getD i 0 →
      st.narrow i mask = (.ok false, st)) := by
  refine ⟨fun b => by simp [Nat.testBit_and], ?_, ?_, ?_⟩
  · exact narrow_empty
  · exact narrow_changed
  · exact narrow_same

/-- Witness for C3 at a concrete input: narrowing cell 5 of a fresh board
to digits 3 and 4 changes the domain and records the trail entry. -/
theorem narrow_contract_witness :
    State.new.domains.length = NN ∧ (5 : Nat) < NN ∧
    State.new.narrow 5 ((1 <<< 3) ||| (1 <<< 4)) = (.ok true,
      { State.new with
          domains := State.new.domains.set 5
            (State.new.domains.getD 5 0 &&& ((1 <<< 3) ||| (1 <<< 4))),
          trail := [(5, State.new.domains.getD 5 0)] }) :=
  ⟨by decide, by decide,
    (narrow_contract State.new 5 ((1 <<< 3) ||| (1 <<< 4)) (by decide)
      (by decide)).2.2.1 (by decide) (by decide)⟩

/-! ### Claim C4: trail round-trip -/

/-- A sequence of narrows; `none` when one of them fails with a
contradiction, so `some` results arise from successful narrows only. -/
def narrowSeq : List (CellIx × Domain) → State → Option State
  | [], st => some st
  | (i, m) :: ops, st =>
    match st.narrow i m with
    | (.ok _, st1) => narrowSeq ops st1
    | (.contradiction, _) => none

theorem narrowSeq_trail_le {ops : List (CellIx × Domain)} {st st1 : State}
    (h : narrowSeq ops st = some st1) : st.trail.length ≤ st1.trail.length := by
  induction ops generalizing st with
  | nil => cases h; exact Nat.le_refl _
  | cons op rest ih =>
    obtain ⟨i, m⟩ := op
    simp only [narrowSeq] at h
    rcases hn : st.narrow i m with ⟨r, st2⟩
    rw [hn] at h
    match r with
    | .contradiction => simp at h
    | .ok b =>
      refine Nat.le_trans ?_ (ih h)
      rcases narrow_trail_grows hn with heq | heq <;> simp [heq]

theorem narrowSeq_btAux {ops : List (CellIx × Domain)} {st st1 : State}
    (h : narrowSeq ops st = some st1) (k : Nat) (hk : k ≤ st.trail.length) :
    btAux k st1.trail st1.domains = btAux k st.trail st.domains := by
  induction ops generalizing st with
  | nil => cases h; rfl
  | cons op rest ih =>
    obtain ⟨i, m⟩ := op
    simp only [narrowSeq] at h
    rcases hn : st.narrow i m with ⟨r, st2⟩
    rw [hn] at h
    match r with
    | .contradiction => simp at h
    | .ok b =>
      have h1 : k ≤ st2.trail.length := by
        rcases narrow_trail_grows hn with heq | heq <;> simp [heq] <;> omega
      rw [ih h h1, narrow_btAux hn k hk]

theorem narrowSeq_queue {ops : List (CellIx × Domain)} {st st1 : State}
    (h : narrowSeq ops st = some st1) : st1.queue = st.queue := by
  induction ops generalizing st with
  | nil => cases h; rfl
  | cons op rest ih =>
    obtain ⟨i, m⟩ := op
    simp only [narrowSeq] at h
    rcases hn : st.narrow i m with ⟨r, st2⟩
    rw [hn] at h
    match r with
    | .contradiction => simp at h
    | .ok b => rw [ih h, narrow_queue hn]

/-- C4.  Any sequence of successful narrows followed by `backtrack_to` the
starting trail length restores the state exactly; and backtracking to a
checkpoint at or beyond the current trail length changes nothing. -/
theorem backtrack_round_trip (ops : List (CellIx × Domain)) (st st1 : State)
    (h : narrowSeq ops st = some st1) :
    st1.backtrack_to st.trail.length = st ∧
    (∀ k, st.trail.length ≤ k → st.backtrack_to k = st) := by
  constructor
  · have hb := narrowSeq_btAux h st.trail.length (Nat.le_refl _)
    have hq := narrowSeq_queue h
    simp only [State.backtrack_to]
    rw [hb, btAux_of_le (Nat.le_refl _), hq]
  · exact fun k hk => backtrack_to_of_le hk

/-- Witness for C4: two narrows on a fresh board, then restoring to the
empty checkpoint, recover the fresh board exactly. -/
theorem backtrack_round_trip_witness :
    narrowSeq [(0, (1 <<< 1) ||| (1 <<< 2)), (1, 1 <<< 4)] State.new =
      some ((State.new.narrow 0 ((1 <<< 1) ||| (1 <<< 2))).2.narrow 1 (1 <<< 4)).2 ∧
    (((State.new.narrow 0 ((1 <<< 1) ||| (1 <<< 2))).2.narrow 1
        (1 <<< 4)).2.backtrack_to 0 = State.new) :=
  ⟨by decide,
    (backtrack_round_trip [(0, (1 <<< 1) ||| (1 <<< 2)), (1, 1 <<< 4)] State.new
      ((State.new.narrow 0 ((1 <<< 1) ||| (1 <<< 2))).2.narrow 1 (1 <<< 4)).2
      (by decide)).1⟩

/-! ### Claim C1: the Kropki black rule is not sound for the 2:1 ratio -/

/-- C1 counterexample.  On the board where cell 1 is fixed to digit 4 and
cell 0 admits digits 3 and 8, `propagate_kropki_black` removes digit 8
from cell 0 even though 8 = 2 * 4 satisfies the 2:1 ratio with the digit
4 still admitted by cell 1 (the shifts implement "differs by one", not
"double/half"; the repository's own `solves_kropki` test is disabled with
a `FIX KROPKI BLACK` comment). -/
theorem kropki_black_unsound :
    (kbState.domains.getD 1 0).testBit 4 = true ∧
    (kbState.domains.getD 0 0).testBit 8 = true ∧
    8 = 2 * 4 ∧
    (propagate_kropki_black kbState 0 1).1 = .ok true ∧
    ((propagate_kropki_black kbState 0 1).2.domains.getD 0 0).testBit 8 = false := by
  decide

/-! ### Claim C2: dispatching a Thermo constraint panics -/

/-- C2 counterexample.  `Constraint::propagate` on a `Thermo` constraint
executes `todo!()`, which panics, instead of returning an "unsupported
constraint" error: no `ok` and no `contradiction` result is produced. -/
theorem thermo_propagate_panics :
    (Constraint.propagate (.Thermo []) State.new).1 = .panicked ∧
    (∀ b : Bool, (Constraint.propagate (.Thermo []) State.new).1 ≠ .ok b) ∧
    (Constraint.propagate (.Thermo []) State.new).1 ≠ .contradiction := by
  refine ⟨rfl, ?_, by decide⟩
  intro b
  cases b <;> decide

/-! ### Claim C6: the duplicate-singleton check -/

theorem filter_map_length {α β : Type} (f : α → β) (p : β → Bool) (l : List α) :
    ((l.map f).filter p).length = (l.filter (fun a => p (f a))).length := by
  induction l with
  | nil => rfl
  | cons a l ih =>
    by_cases h : p (f a) = true <;>
      simp [List.filter_cons, h, ih]

theorem testBit_shiftLeft_one_self (d : Nat) : (1 <<< d).testBit d = true := by
  rw [Nat.shiftLeft_eq, Nat.one_mul]
  exact Nat.testBit_two_pow_self

theorem adCount_two {st : State} {cells : Fin 9 → CellIx} {d : Nat} (j k : Fin 9)
    (hjk : j ≠ k) (hj : admits st (cells j) d = true)
    (hk : admits st (cells k) d = true) : 2 ≤ adCount st cells d := by
  unfold adCount adCells
  rw [filter_map_length]
  refine two_le_length_of_mem_ne (a := j) (b := k) ?_ ?_ hjk <;>
    simp [List.mem_filter, List.mem_finRange, hj, hk]

theorem adSingCount_two {st : State} {cells : Fin 9 → CellIx} {d : Nat} (j k : Fin 9)
    (hjk : j ≠ k) (hj : st.domains.getD (cells j) 0 = 1 <<< d)
    (hk : st.domains.getD (cells k) 0 = 1 <<< d) :
    2 ≤ ((adCells cells).filter (fun i => st.domains.getD i 0 = 1 <<< d)).length := by
  unfold adCells
  rw [filter_map_length]
  refine two_le_length_of_mem_ne (a := j) (b := k) ?_ ?_ hjk
  · exact List.mem_filter.mpr ⟨List.mem_finRange _, by rw [decide_eq_true_iff]; exact hj⟩
  · exact List.mem_filter.mpr ⟨List.mem_finRange _, by rw [decide_eq_true_iff]; exact hk⟩

theorem adDupCheck_of_dup {st : State} {cells : Fin 9 → CellIx} {d : Nat}
    (j k : Fin 9) (h1 : 1 ≤ d) (h9 : d ≤ 9) (hjk : j ≠ k)
    (hj : st.domains.getD (cells j) 0 = 1 <<< d)
    (hk : st.domains.getD (cells k) 0 = 1 <<< d) :
    adDupCheck st cells = true := by
  unfold adDupCheck
  rw [List.any_eq_true]
  refine ⟨d, ?_, ?_⟩
  · rw [List.mem_range'_1]
    omega
  · rw [Bool.and_eq_true, decide_eq_true_iff, decide_eq_true_iff]
    have hadm : ∀ x : Fin 9, st.domains.getD (cells x) 0 = 1 <<< d →
        admits st (cells x) d = true := by
      intro x hx
      rw [admits, hx]
      exact testBit_shiftLeft_one_self d
    exact ⟨adCount_two j k hjk (hadm j hj) (hadm k hk), adSingCount_two j k hjk hj hk⟩

/-- C6.  `propagate_all_diff` fails with a contradiction whenever two
distinct cells of the scope are already singleton-assigned to the same
digit; and it does not fail merely because two cells both still admit a
digit without being singletons (on a fresh scope, where every digit is
admitted by all nine non-singleton cells, it reports no change). -/
theorem all_diff_duplicate_contract :
    (∀ (st : State) (cells : Fin 9 → CellIx) (d : Nat) (j k : Fin 9),
      1 ≤ d → d ≤ 9 → j ≠ k →
      st.domains.getD (cells j) 0 = 1 <<< d →
      st.domains.getD (cells k) 0 = 1 <<< d →
      (propagate_all_diff st cells).1 = .contradiction) ∧
    ((propagate_all_diff State.new c9).1 = .ok false ∧
      (State.new.domains.getD 0 0).testBit 5 = true ∧
      (State.new.domains.getD 1 0).testBit 5 = true ∧
      count_ones (State.new.domains.getD 0 0) ≠ 1) := by
  constructor
  · intro st cells d j k h1 h9 hjk hj hk
    unfold propagate_all_diff
    by_cases hempty : (adCells cells).any (fun i => st.domains.getD i 0 == 0) = true
    · rw [if_pos hempty]
    · rw [if_neg hempty, if_pos (adDupCheck_of_dup j k h1 h9 hjk hj hk)]
  · refine ⟨by decide, by decide, by decide, by decide⟩

/-- Witness for C6: on a board whose cells 0 and 3 are both fixed to
digit 5, the all-different pass on the first row fails with a
contradiction. -/
theorem all_diff_duplicate_contract_witness :
    (propagate_all_diff
      { State.new with
          domains := (State.new.domains.set 0 (1 <<< 5)).set 3 (1 <<< 5) } c9).1 =
      .contradiction :=
  all_diff_duplicate_contract.1
    { State.new with
        domains := (State.new.domains.set 0 (1 <<< 5)).set 3 (1 <<< 5) }
    c9 5 0 3 (by decide) (by decide) (by decide) (by decide) (by decide)

/-! ### Claim C9: the MRV choice -/

theorem mrvGo_cons_skip (doms : List Domain) (i : Nat) (rest : List Nat)
    (best : Option (Nat × Nat)) (h : ¬ 1 < count_ones (doms.getD i 0)) :
    mrvGo doms (i :: rest) best = mrvGo doms rest best := by
  simp only [mrvGo]
  rw [if_neg h]

theorem mrvGo_cons_none (doms : List Domain) (i : Nat) (rest : List Nat)
    (h : 1 < count_ones (doms.getD i 0)) :
    mrvGo doms (i :: rest) none =
      mrvGo doms rest (some (i, count_ones (doms.getD i 0))) := by
  simp only [mrvGo]
  rw [if_pos h]

theorem mrvGo_cons_some_lt (doms : List Domain) (i bi bc : Nat) (rest : List Nat)
    (h : 1 < count_ones (doms.getD i 0)) (hlt : count_ones (doms.getD i 0) < bc) :
    mrvGo doms (i :: rest) (some (bi, bc)) =
      mrvGo doms rest (some (i, count_ones (doms.getD i 0))) := by
  simp only [mrvGo]
  rw [if_pos h]
  exact if_pos hlt

theorem mrvGo_cons_some_ge (doms : List Domain) (i bi bc : Nat) (rest : List Nat)
    (h : 1 < count_ones (doms.getD i 0)) (hge : ¬ count_ones (doms.getD i 0) < bc) :
    mrvGo doms (i :: rest) (some (bi, bc)) = mrvGo doms rest (some (bi, bc)) := by
  simp only [mrvGo]
  rw [if_pos h]
  exact if_neg hge

theorem mrvGo_spec (doms : List Domain) : ∀ (n s : Nat) (best : Option (Nat × Nat)),
    (∀ bi bc, best = some (bi, bc) →
      bc = count_ones (doms.getD bi 0) ∧ 1 < bc ∧ bi < s ∧
      (∀ j, j < s → 1 < count_ones (doms.getD j 0) → bc ≤ count_ones (doms.getD j 0)) ∧
      (∀ j, j < bi → 1 < count_ones (doms.getD j 0) → bc < count_ones (doms.getD j 0))) →
    (best = none → ∀ j, j < s → ¬ 1 < count_ones (doms.getD j 0)) →
    ((mrvGo doms (List.range' s n) best = none →
        ∀ j, j < s + n → ¬ 1 < count_ones (doms.getD j 0)) ∧
     (∀ i c, mrvGo doms (List.range' s n) best = some (i, c) →
        c = count_ones (doms.getD i 0) ∧ 1 < c ∧ i < s + n ∧
        (∀ j, j < s + n → 1 < count_ones (doms.getD j 0) →
          c ≤ count_ones (doms.getD j 0)) ∧
        (∀ j, j < i → 1 < count_ones (doms.getD j 0) →
          c < count_ones (doms.getD j 0)))) := by
  intro n
  induction n with
  | zero =>
    intro s best hsome hnone
    constructor
    · intro hres j hj
      exact hnone hres j (by omega)
    · intro i c hres
      obtain ⟨h1, h2, h3, h4, h5⟩ := hsome i c hres
      exact ⟨h1, h2, by omega, fun j hj => h4 j (by omega), h5⟩
  | succ n ih =>
    intro s best hsome hnone
    rw [List.range'_succ]
    have hshift : ∀ best2 : Option (Nat × Nat),
        (∀ bi bc, best2 = some (bi, bc) →
          bc = count_ones (doms.getD bi 0) ∧ 1 < bc ∧ bi < s + 1 ∧
          (∀ j, j < s + 1 → 1 < count_ones (doms.getD j 0) →
            bc ≤ count_ones (doms.getD j 0)) ∧
          (∀ j, j < bi → 1 < count_ones (doms.getD j 0) →
            bc < count_ones (doms.getD j 0))) →
        (best2 = none → ∀ j, j < s + 1 → ¬ 1 < count_ones (doms.getD j 0)) →
        ((mrvGo doms (List.range' (s + 1) n) best2 = none →
            ∀ j, j < s + (n + 1) → ¬ 1 < count_ones (doms.getD j 0)) ∧
         (∀ i c, mrvGo doms (List.range' (s + 1) n) best2 = some (i, c) →
            c = count_ones (doms.getD i 0) ∧ 1 < c ∧ i < s + (n + 1) ∧
            (∀ j, j < s + (n + 1) → 1 < count_ones (doms.getD j 0) →
              c ≤ count_ones (doms.getD j 0)) ∧
            (∀ j, j < i → 1 < count_ones (doms.getD j 0) →
              c < count_ones (doms.getD j 0)))) := by
      intro best2 h1 h2
      have hrec := ih (s + 1) best2 h1 h2
      constructor
      · intro hres j hj
        exact hrec.1 hres j (by omega)
      · intro i c hres
        obtain ⟨g1, g2, g3, g4, g5⟩ := hrec.2 i c hres
        exact ⟨g1, g2, by omega, fun j hj => g4 j (by omega), g5⟩
    by_cases hc : 1 < count_ones (doms.getD s 0)
    · match best with
      | none =>
        rw [mrvGo_cons_none doms s _ hc]
        refine hshift (some (s, count_ones (doms.getD s 0))) ?_ (by intro hx; cases hx)
        intro bi bc hb
        injection hb with hb
        have he1 : bi = s := (congrArg Prod.fst hb).symm
        have he2 : bc = count_ones (doms.getD s 0) := (congrArg Prod.snd hb).symm
        subst he1; subst he2
        refine ⟨rfl, hc, by omega, ?_, ?_⟩
        · intro j hj hj2
          rcases Nat.lt_or_ge j bi with hl | hg
          · exact absurd hj2 (hnone rfl j hl)
          · have hjs : j = bi := by omega
            subst hjs
            exact Nat.le_refl _
        · intro j hj hj2
          exact absurd hj2 (hnone rfl j (by omega))
      | some (bi, bc) =>
        obtain ⟨hb1, hb2, hb3, hb4, hb5⟩ := hsome bi bc rfl
        by_cases hlt : count_ones (doms.getD s 0) < bc
        · rw [mrvGo_cons_some_lt doms s bi bc _ hc hlt]
          refine hshift (some (s, count_ones (doms.getD s 0))) ?_ (by intro hx; cases hx)
          intro bi2 bc2 hb
          injection hb with hb
          have he1 : bi2 = s := (congrArg Prod.fst hb).symm
          have he2 : bc2 = count_ones (doms.getD s 0) := (congrArg Prod.snd hb).symm
          subst he1; subst he2
          refine ⟨rfl, hc, by omega, ?_, ?_⟩
          · intro j hj hj2
            rcases Nat.lt_or_ge j bi2 with hl | hg
            · exact Nat.le_trans (Nat.le_of_lt hlt) (hb4 j hl hj2)
            · have hjs : j = bi2 := by omega
              subst hjs
              exact Nat.le_refl _
          · intro j hj hj2
            exact Nat.lt_of_lt_of_le hlt (hb4 j (by omega) hj2)
        · rw [mrvGo_cons_some_ge doms s bi bc _ hc hlt]
          refine hshift (some (bi, bc)) ?_ (by intro hx; cases hx)
          intro bi2 bc2 hb
          injection hb with hb
          have he1 : bi2 = bi := (congrArg Prod.fst hb).symm
          have he2 : bc2 = bc := (congrArg Prod.snd hb).symm
          subst he1; subst he2
          refine ⟨hb1, hb2, by omega, ?_, hb5⟩
          intro j hj hj2
          rcases Nat.lt_or_ge j s with hl | hg
          · exact hb4 j hl hj2
          · have hjs : j = s := by omega
            subst hjs
            exact Nat.le_of_not_lt hlt
    · rw [mrvGo_cons_skip doms s _ best hc]
      refine hshift best ?_ ?_
      · intro bi bc hb
        obtain ⟨h1, h2, h3, h4, h5⟩ := hsome bi bc hb
        refine ⟨h1, h2, by omega, ?_, h5⟩
        intro j hj hj2
        rcases Nat.lt_or_ge j s with hl | hg
        · exact h4 j hl hj2
        · have hjs : j = s := by omega
          subst hjs
          exact absurd hj2 hc
      · intro hb j hj
        rcases Nat.lt_or_ge j s with hl | hg
        · exact hnone hb j hl
        · have hjs : j = s := by omega
          subst hjs
          exact hc

theorem count_ones_pos {m : Nat} (hne : m ≠ 0) (hlt : m < 65536) :
    1 ≤ count_ones m := by
  by_contra hcount
  have hzero : ((List.range 16).filter m.testBit).length = 0 := by
    unfold count_ones at hcount
    omega
  rw [List.length_eq_zero] at hzero
  apply hne
  apply Nat.eq_of_testBit_eq
  intro b
  rw [Nat.zero_testBit]
  by_cases hb : b < 16
  · by_contra hbit
    rw [Bool.not_eq_false] at hbit
    have : b ∈ (List.range 16).filter m.testBit :=
      List.mem_filter.mpr ⟨List.mem_range.mpr hb, hbit⟩
    rw [hzero] at this
    simp at this
  · have h16 : (65536 : Nat) = 2 ^ 16 := by norm_num
    exact Nat.testBit_lt_two_pow
      (lt_of_lt_of_le hlt (by rw [h16]; exact Nat.pow_le_pow_right (by omega) (Nat.le_of_not_lt hb)))

/-- C9.  `choose_mrv` returns the first cell whose domain size is
strictly greater than one and minimal among such cells (smallest count,
ties broken by the lowest index); it returns `none` exactly when no cell
has more than one candidate, which for nonempty `u16` domains means every
cell is a singleton. -/
theorem choose_mrv_contract (e : Engine) :
    (∀ i, e.choose_mrv = some i →
      1 < count_ones (e.state.domains.getD i 0) ∧ i < NN ∧
      (∀ j, j < NN → 1 < count_ones (e.state.domains.getD j 0) →
        count_ones (e.state.domains.getD i 0) ≤ count_ones (e.state.domains.getD j 0)) ∧
      (∀ j, j < i → 1 < count_ones (e.state.domains.getD j 0) →
        count_ones (e.state.domains.getD i 0) < count_ones (e.state.domains.getD j 0))) ∧
    (e.choose_mrv = none ↔
      ∀ j, j < NN → ¬ 1 < count_ones (e.state.domains.getD j 0)) ∧
    (e.choose_mrv = none →
      (∀ j, j < NN → e.state.domains.getD j 0 ≠ 0 ∧ e.state.domains.getD j 0 < 65536) →
      ∀ j, j < NN → count_ones (e.state.domains.getD j 0) = 1) := by
  have hspec := mrvGo_spec e.state.domains NN 0 none
    (by intro bi bc hb; cases hb) (by intro hb j hj hj2; omega)
  have hrange : List.range NN = List.range' 0 NN := List.range_eq_range' NN
  constructor
  · intro i hi
    unfold Engine.choose_mrv at hi
    rw [hrange] at hi
    match hm : mrvGo e.state.domains (List.range' 0 NN) none with
    | none => rw [hm] at hi; cases hi
    | some (i2, c) =>
      rw [hm] at hi
      simp at hi
      subst hi
      obtain ⟨h1, h2, h3, h4, h5⟩ := hspec.2 i2 c hm
      subst h1
      exact ⟨h2, by simpa using h3, fun j hj => h4 j (by simpa using hj), h5⟩
  · constructor
    · constructor
      · intro hn
        unfold Engine.choose_mrv at hn
        rw [hrange] at hn
        match hm : mrvGo e.state.domains (List.range' 0 NN) none with
        | some (i2, c) => rw [hm] at hn; cases hn
        | none =>
          intro j hj
          exact hspec.1 hm j (by omega)
      · intro hall
        unfold Engine.choose_mrv
        rw [hrange]
        match hm : mrvGo e.state.domains (List.range' 0 NN) none with
        | none => rfl
        | some (i2, c) =>
          obtain ⟨h1, h2, h3, h4, h5⟩ := hspec.2 i2 c hm
          exact absurd (h1 ▸ h2) (hall i2 (by omega))
    · intro hn hwf j hj
      have hnone : ∀ k, k < NN → ¬ 1 < count_ones (e.state.domains.getD k 0) := by
        unfold Engine.choose_mrv at hn
        rw [hrange] at hn
        match hm : mrvGo e.state.domains (List.range' 0 NN) none with
        | some (i2, c) => rw [hm] at hn; cases hn
        | none =>
          intro k hk
          exact hspec.1 hm k (by omega)
      have hge := count_ones_pos (hwf j hj).1 (hwf j hj).2
      have hlt := hnone j hj
      omega

/-- Witness for C9: on a fresh engine `choose_mrv` picks cell 0 (all 81
cells tie at nine candidates); on a fully assigned board it returns
`none` and every cell is singleton. -/
theorem choose_mrv_contract_witness :
    Engine.new.choose_mrv = some 0 ∧
    1 < count_ones (Engine.new.state.domains.getD 0 0) ∧
    singEngine.choose_mrv = none ∧
    count_ones (singEngine.state.domains.getD 7 0) = 1 :=
  ⟨by decide, ((choose_mrv_contract Engine.new).1 0 (by decide)).1, by decide,
    (choose_mrv_contract singEngine).2.2 (by decide) (by decide) 7 (by decide)⟩

/-! ### Narrow-like state transformations

Every state change performed inside constraint propagation goes through
`State.narrow`; this bundle collects the facts preserved by such steps
and is closed under composition. -/

def GoodS (st : State) : Prop :=
  (∀ d ∈ st.domains, d ≠ 0 ∧ d < 65536) ∧ (∀ p ∈ st.trail, p.2 ≠ 0 ∧ p.2 < 65536)

structure NLike (st st' : State) : Prop where
  queue : st'.queue = st.queue
  domlen : st'.domains.length = st.domains.length
  tv : totalVal st' ≤ totalVal st
  shrink : ∀ j b, (st'.domains.getD j 0).testBit b → (st.domains.getD j 0).testBit b
  trail : ∃ pre, st'.trail = pre ++ st.trail
  restore : ∀ k, k ≤ st.trail.length →
    btAux k st'.trail st'.domains = btAux k st.trail st.domains
  good : GoodS st → GoodS st'

theorem NLike.nrefl (st : State) : NLike st st :=
  ⟨Eq.refl _, Eq.refl _, Nat.le_refl _, fun _ _ h => h, ⟨[], (List.nil_append _).symm⟩,
    fun _ _ => Eq.refl _, id⟩

theorem NLike.ntrans {st1 st2 st3 : State} (a : NLike st1 st2) (b : NLike st2 st3) :
    NLike st1 st3 := by
  obtain ⟨p1, hp1⟩ := a.trail
  obtain ⟨p2, hp2⟩ := b.trail
  refine ⟨b.queue.trans a.queue, b.domlen.trans a.domlen, Nat.le_trans b.tv a.tv,
    fun j c h => a.shrink j c (b.shrink j c h), ⟨p2 ++ p1, by rw [hp2, hp1, List.append_assoc]⟩,
    ?_, fun h => b.good (a.good h)⟩
  intro k hk
  have hk2 : k ≤ st2.trail.length := by
    rw [hp1, List.length_append]
    omega
  rw [b.restore k hk2, a.restore k hk]

theorem narrow_nlike {st : State} {i : CellIx} {mask : Domain} {r : NRes} {st1 : State}
    (h : st.narrow i mask = (r, st1)) : NLike st st1 := by
  refine ⟨narrow_queue h, narrow_domlen h, narrow_totalVal_le h, narrow_shrink h, ?_,
    narrow_btAux h, ?_⟩
  · rcases narrow_trail_grows h with ht | ht
    · exact ⟨[], by rw [ht]; exact (List.nil_append _).symm⟩
    · exact ⟨[(i, st.domains.getD i 0)], by rw [ht]; rfl⟩
  · intro hg
    refine narrow_rec h (fun h0 hr hst => by rw [hst]; exact hg)
      (fun h0 hne hr hst => ?_) (fun h0 heq hr hst => by rw [hst]; exact hg)
    have hi : i < st.domains.length := by
      by_contra hk
      have hz : st.domains.getD i 0 = 0 :=
        List.getD_eq_default _ _ (Nat.le_of_not_lt hk)
      rw [hz] at h0
      exact h0 (by simp)
    have hold : st.domains.getD i 0 ∈ st.domains := by
      rw [List.getD_eq_getElem _ _ hi]
      exact List.getElem_mem hi
    have holdg := hg.1 _ hold
    subst hst
    constructor
    · intro d hd
      rcases mem_set_elim hd with rfl | hd2
      · exact ⟨h0, Nat.lt_of_le_of_lt Nat.and_le_left holdg.2⟩
      · exact hg.1 d hd2
    · intro p hp
      rcases List.mem_cons.mp hp with rfl | hp2
      · exact holdg
      · exact hg.2 p hp2

/-! ### Constraint propagators as narrow-like transformations -/

theorem narrowPair_rec {st : State} {a b : CellIx} {ma mb : Domain} {r : CRes}
    {st' : State} (h : narrowPair st a ma b mb = (r, st'))
    {motive : Prop}
    (hc1 : st.narrow a ma = (.contradiction, st') → r = .contradiction → motive)
    (hc2 : ∀ ca st1, st.narrow a ma = (.ok ca, st1) →
      st1.narrow b mb = (.contradiction, st') → r = .contradiction → motive)
    (hok : ∀ ca cb st1, st.narrow a ma = (.ok ca, st1) →
      st1.narrow b mb = (.ok cb, st') → r = .ok (ca || cb) → motive) : motive := by
  unfold narrowPair at h
  split at h
  · rename_i st1 heq
    simp only [Prod.mk.injEq] at h
    exact hc1 (h.2 ▸ heq) h.1.symm
  · rename_i ca st1 heq
    split at h
    · rename_i st2 heq2
      simp only [Prod.mk.injEq] at h
      exact hc2 ca st1 heq (h.2 ▸ heq2) h.1.symm
    · rename_i cb st2 heq2
      simp only [Prod.mk.injEq] at h
      exact hok ca cb st1 heq (h.2 ▸ heq2) h.1.symm

theorem narrowPair_nlike {st : State} {a b : CellIx} {ma mb : Domain} {r : CRes}
    {st' : State} (h : narrowPair st a ma b mb = (r, st')) : NLike st st' := by
  refine narrowPair_rec h (fun h1 _ => narrow_nlike h1)
    (fun ca st1 h1 h2 _ => (narrow_nlike h1).ntrans (narrow_nlike h2))
    (fun ca cb st1 h1 h2 _ => (narrow_nlike h1).ntrans (narrow_nlike h2))

theorem narrowPair_false {st : State} {a b : CellIx} {ma mb : Domain} {st' : State}
    (h : narrowPair st a ma b mb = (.ok false, st')) : st' = st := by
  refine narrowPair_rec h (fun _ hr => by cases hr)
    (fun ca st1 h1 h2 hr => by cases hr)
    (fun ca cb st1 h1 h2 hr => ?_)
  have hca : ca = false := by
    cases ca
    · rfl
    · cases hr
  have hcb : cb = false := by
    cases cb
    · rfl
    · rw [hca] at hr
      cases hr
  subst hca; subst hcb
  rw [narrow_not_changed h2 (by simp), narrow_not_changed h1 (by simp)]

theorem narrowPair_true_lt {st : State} {a b : CellIx} {ma mb : Domain} {st' : State}
    (h : narrowPair st a ma b mb = (.ok true, st')) :
    totalVal st' < totalVal st := by
  refine narrowPair_rec h (fun _ hr => by cases hr)
    (fun ca st1 h1 h2 hr => by cases hr)
    (fun ca cb st1 h1 h2 hr => ?_)
  match ca with
  | true =>
    exact Nat.lt_of_le_of_lt (narrow_totalVal_le h2) (narrow_changed_lt h1)
  | false =>
    match cb with
    | true =>
      rw [narrow_not_changed h1 (by simp)] at h2
      exact narrow_changed_lt h2
    | false => cases hr

theorem adHidden_nlike (cnt : Nat → Nat) (lastp : Nat → Option CellIx) :
    ∀ (l : List Nat) (ch : Bool) (st : State) (r : CRes) (st' : State),
    adHidden cnt lastp l ch st = (r, st') → NLike st st' := by
  intro l
  induction l with
  | nil =>
    intro ch st r st' h
    simp only [adHidden, Prod.mk.injEq] at h
    rw [← h.2]
    exact NLike.nrefl st
  | cons d ds ih =>
    intro ch st r st' h
    simp only [adHidden] at h
    by_cases hc : cnt d = 1
    · rw [if_pos hc] at h
      split at h
      · simp only [Prod.mk.injEq] at h
        rw [← h.2]
        exact NLike.nrefl st
      · rename_i i heq
        split at h
        · rename_i c st1 heq2
          exact (narrow_nlike heq2).ntrans (ih _ _ _ _ h)
        · rename_i st1 heq2
          simp only [Prod.mk.injEq] at h
          rw [← h.2]
          exact narrow_nlike heq2
    · rw [if_neg hc] at h
      exact ih _ _ _ _ h

theorem adHidden_false (cnt : Nat → Nat) (lastp : Nat → Option CellIx) :
    ∀ (l : List Nat) (ch : Bool) (st : State) (st' : State),
    adHidden cnt lastp l ch st = (.ok false, st') → ch = false ∧ st' = st := by
  intro l
  induction l with
  | nil =>
    intro ch st st' h
    simp only [adHidden, Prod.mk.injEq, CRes.ok.injEq] at h
    exact ⟨h.1, h.2.symm⟩
  | cons d ds ih =>
    intro ch st st' h
    simp only [adHidden] at h
    by_cases hc : cnt d = 1
    · rw [if_pos hc] at h
      split at h
      · simp at h
      · rename_i i heq
        split at h
        · rename_i c st1 heq2
          obtain ⟨horc, hst⟩ := ih _ _ _ h
          have hch : ch = false := by
            cases ch
            · rfl
            · simp at horc
          have hcc : c = false := by
            cases c
            · rfl
            · rw [hch] at horc
              simp at horc
          subst hcc
          rw [hst, narrow_not_changed heq2 (by simp)]
          exact ⟨hch, rfl⟩
        · rename_i st1 heq2
          simp at h
    · rw [if_neg hc] at h
      exact ih _ _ _ h

theorem adHidden_true_lt (cnt : Nat → Nat) (lastp : Nat → Option CellIx) :
    ∀ (l : List Nat) (ch : Bool) (st : State) (st' : State),
    adHidden cnt lastp l ch st = (.ok true, st') →
    ch = true ∨ totalVal st' < totalVal st := by
  intro l
  induction l with
  | nil =>
    intro ch st st' h
    simp only [adHidden, Prod.mk.injEq, CRes.ok.injEq] at h
    exact Or.inl h.1
  | cons d ds ih =>
    intro ch st st' h
    simp only [adHidden] at h
    by_cases hc : cnt d = 1
    · rw [if_pos hc] at h
      split at h
      · simp at h
      · rename_i i heq
        split at h
        · rename_i c st1 heq2
          rcases ih _ _ _ h with horc | hlt
          · match ch with
            | true => exact Or.inl rfl
            | false =>
              match c with
              | false => simp at horc
              | true =>
                refine Or.inr (Nat.lt_of_le_of_lt ?_ (narrow_changed_lt heq2))
                exact (adHidden_nlike cnt lastp _ _ _ _ _ h).tv
          · exact Or.inr (Nat.lt_of_lt_of_le hlt (narrow_totalVal_le heq2))
        · rename_i st1 heq2
          simp at h
    · rw [if_neg hc] at h
      exact ih _ _ _ h

theorem adElim_nlike (taken : Domain) :
    ∀ (l : List CellIx) (ch : Bool) (st : State) (r : CRes) (st' : State),
    adElim taken l ch st = (r, st') → NLike st st' := by
  intro l
  induction l with
  | nil =>
    intro ch st r st' h
    simp only [adElim, Prod.mk.injEq] at h
    rw [← h.2]
    exact NLike.nrefl st
  | cons i is ih =>
    intro ch st r st' h
    simp only [adElim] at h
    by_cases hc : count_ones (st.domains.getD i 0) = 1
    · rw [if_pos hc] at h
      exact ih _ _ _ _ h
    · rw [if_neg hc] at h
      split at h
      · rename_i c st1 heq2
        exact (narrow_nlike heq2).ntrans (ih _ _ _ _ h)
      · rename_i st1 heq2
        simp only [Prod.mk.injEq] at h
        rw [← h.2]
        exact narrow_nlike heq2

theorem adElim_false (taken : Domain) :
    ∀ (l : List CellIx) (ch : Bool) (st : State) (st' : State),
    adElim taken l ch st = (.ok false, st') → ch = false ∧ st' = st := by
  intro l
  induction l with
  | nil =>
    intro ch st st' h
    simp only [adElim, Prod.mk.injEq, CRes.ok.injEq] at h
    exact ⟨h.1, h.2.symm⟩
  | cons i is ih =>
    intro ch st st' h
    simp only [adElim] at h
    by_cases hc : count_ones (st.domains.getD i 0) = 1
    · rw [if_pos hc] at h
      exact ih _ _ _ h
    · rw [if_neg hc] at h
      split at h
      · rename_i c st1 heq2
        obtain ⟨horc, hst⟩ := ih _ _ _ h
        have hch : ch = false := by
          cases ch
          · rfl
          · simp at horc
        have hcc : c = false := by
          cases c
          · rfl
          · rw [hch] at horc
            simp at horc
        subst hcc
        rw [hst, narrow_not_changed heq2 (by simp)]
        exact ⟨hch, rfl⟩
      · rename_i st1 heq2
        simp at h

theorem adElim_true_lt (taken : Domain) :
    ∀ (l : List CellIx) (ch : Bool) (st : State) (st' : State),
    adElim taken l ch st = (.ok true, st') →
    ch = true ∨ totalVal st' < totalVal st := by
  intro l
  induction l with
  | nil =>
    intro ch st st' h
    simp only [adElim, Prod.mk.injEq, CRes.ok.injEq] at h
    exact Or.inl h.1
  | cons i is ih =>
    intro ch st st' h
    simp only [adElim] at h
    by_cases hc : count_ones (st.domains.getD i 0) = 1
    · rw [if_pos hc] at h
      exact ih _ _ _ h
    · rw [if_neg hc] at h
      split at h
      · rename_i c st1 heq2
        rcases ih _ _ _ h with horc | hlt
        · match ch with
          | true => exact Or.inl rfl
          | false =>
            match c with
            | false => simp at horc
            | true =>
              refine Or.inr (Nat.lt_of_le_of_lt ?_ (narrow_changed_lt heq2))
              exact (adElim_nlike taken _ _ _ _ _ h).tv
        · exact Or.inr (Nat.lt_of_lt_of_le hlt (narrow_totalVal_le heq2))
      · rename_i st1 heq2
        simp at h

theorem all_diff_nlike {st : State} {cells : Fin 9 → CellIx} {r : CRes} {st' : State}
    (h : propagate_all_diff st cells = (r, st')) : NLike st st' := by
  unfold propagate_all_diff at h
  by_cases h1 : (adCells cells).any (fun i => st.domains.getD i 0 == 0) = true
  · rw [if_pos h1] at h
    simp only [Prod.mk.injEq] at h
    rw [← h.2]
    exact NLike.nrefl st
  · rw [if_neg h1] at h
    by_cases h2 : adDupCheck st cells = true
    · rw [if_pos h2] at h
      simp only [Prod.mk.injEq] at h
      rw [← h.2]
      exact NLike.nrefl st
    · rw [if_neg h2] at h
      split at h
      · rename_i ch st1 hh
        by_cases ht : adTaken st cells ≠ 0
        · rw [if_pos ht] at h
          exact (adHidden_nlike _ _ _ _ _ _ _ hh).ntrans (adElim_nlike _ _ _ _ _ _ h)
        · rw [if_neg ht] at h
          simp only [Prod.mk.injEq] at h
          rw [← h.2]
          exact adHidden_nlike _ _ _ _ _ _ _ hh
      · rename_i st1 hh
        simp only [Prod.mk.injEq] at h
        rw [← h.2]
        exact adHidden_nlike _ _ _ _ _ _ _ hh
      · rename_i st1 hh
        simp only [Prod.mk.injEq] at h
        rw [← h.2]
        exact adHidden_nlike _ _ _ _ _ _ _ hh

theorem all_diff_false {st : State} {cells : Fin 9 → CellIx} {st' : State}
    (h : propagate_all_diff st cells = (.ok false, st')) : st' = st := by
  unfold propagate_all_diff at h
  by_cases h1 : (adCells cells).any (fun i => st.domains.getD i 0 == 0) = true
  · rw [if_pos h1] at h
    simp at h
  · rw [if_neg h1] at h
    by_cases h2 : adDupCheck st cells = true
    · rw [if_pos h2] at h
      simp at h
    · rw [if_neg h2] at h
      split at h
      · rename_i ch st1 hh
        by_cases ht : adTaken st cells ≠ 0
        · rw [if_pos ht] at h
          obtain ⟨hch, hst⟩ := adElim_false _ _ _ _ _ h
          subst hch
          rw [hst, (adHidden_false _ _ _ _ _ _ hh).2]
        · rw [if_neg ht] at h
          simp only [Prod.mk.injEq, CRes.ok.injEq] at h
          obtain ⟨hch, hst⟩ := h
          subst hch
          rw [← hst, (adHidden_false _ _ _ _ _ _ hh).2]
      · rename_i st1 hh
        simp at h
      · rename_i st1 hh
        simp at h

theorem all_diff_true_lt {st : State} {cells : Fin 9 → CellIx} {st' : State}
    (h : propagate_all_diff st cells = (.ok true, st')) :
    totalVal st' < totalVal st := by
  unfold propagate_all_diff at h
  by_cases h1 : (adCells cells).any (fun i => st.domains.getD i 0 == 0) = true
  · rw [if_pos h1] at h
    simp at h
  · rw [if_neg h1] at h
    by_cases h2 : adDupCheck st cells = true
    · rw [if_pos h2] at h
      simp at h
    · rw [if_neg h2] at h
      split at h
      · rename_i ch st1 hh
        by_cases ht : adTaken st cells ≠ 0
        · rw [if_pos ht] at h
          rcases adElim_true_lt _ _ _ _ _ h with hch | hlt
          · subst hch
            refine Nat.lt_of_le_of_lt (adElim_nlike _ _ _ _ _ _ h).tv ?_
            rcases adHidden_true_lt _ _ _ _ _ _ hh with hff | hl2
            · cases hff
            · exact hl2
          · exact Nat.lt_of_lt_of_le hlt (adHidden_nlike _ _ _ _ _ _ _ hh).tv
        · rw [if_neg ht] at h
          simp only [Prod.mk.injEq, CRes.ok.injEq] at h
          obtain ⟨hch, hst⟩ := h
          subst hch
          rcases adHidden_true_lt _ _ _ _ _ _ hh with hff | hl2
          · cases hff
          · rw [← hst]
            exact hl2
      · rename_i st1 hh
        simp at h
      · rename_i st1 hh
        simp at h

theorem cprop_nlike {c : Constraint} {st : State} {r : CRes} {st' : State}
    (h : c.propagate st = (r, st')) : NLike st st' := by
  match c with
  | .AllDifferent cells => exact all_diff_nlike h
  | .KropkiWhite a b =>
    unfold Constraint.propagate propagate_kropki_white at h
    exact narrowPair_nlike h
  | .KropkiBlack a b =>
    unfold Constraint.propagate propagate_kropki_black at h
    exact narrowPair_nlike h
  | .Thermo cells =>
    simp only [Constraint.propagate, Prod.mk.injEq] at h
    rw [← h.2]
    exact NLike.nrefl st

theorem cprop_false {c : Constraint} {st : State} {st' : State}
    (h : c.propagate st = (.ok false, st')) : st' = st := by
  match c with
  | .AllDifferent cells => exact all_diff_false h
  | .KropkiWhite a b =>
    unfold Constraint.propagate propagate_kropki_white at h
    exact narrowPair_false h
  | .KropkiBlack a b =>
    unfold Constraint.propagate propagate_kropki_black at h
    exact narrowPair_false h
  | .Thermo cells => simp [Constraint.propagate] at h

theorem cprop_true_lt {c : Constraint} {st : State} {st' : State}
    (h : c.propagate st = (.ok true, st')) : totalVal st' < totalVal st := by
  match c with
  | .AllDifferent cells => exact all_diff_true_lt h
  | .KropkiWhite a b =>
    unfold Constraint.propagate propagate_kropki_white at h
    exact narrowPair_true_lt h
  | .KropkiBlack a b =>
    unfold Constraint.propagate propagate_kropki_black at h
    exact narrowPair_true_lt h
  | .Thermo cells => simp [Constraint.propagate] at h

/-! ### The propagation drain -/

/-- Like `NLike` but without the queue clause: the facts preserved by the
drain loop, which pops and pushes queue entries. -/
structure PLike (st st' : State) : Prop where
  domlen : st'.domains.length = st.domains.length
  tv : totalVal st' ≤ totalVal st
  shrink : ∀ j b, (st'.domains.getD j 0).testBit b → (st.domains.getD j 0).testBit b
  trail : ∃ pre, st'.trail = pre ++ st.trail
  restore : ∀ k, k ≤ st.trail.length →
    btAux k st'.trail st'.domains = btAux k st.trail st.domains
  good : GoodS st → GoodS st'

theorem NLike.plike {st st' : State} (h : NLike st st') : PLike st st' :=
  ⟨h.domlen, h.tv, h.shrink, h.trail, h.restore, h.good⟩

theorem PLike.prefl (st : State) : PLike st st :=
  ⟨Eq.refl _, Nat.le_refl _, fun _ _ h => h, ⟨[], (List.nil_append _).symm⟩,
    fun _ _ => Eq.refl _, id⟩

theorem PLike.ptrans {st1 st2 st3 : State} (a : PLike st1 st2) (b : PLike st2 st3) :
    PLike st1 st3 := by
  obtain ⟨p1, hp1⟩ := a.trail
  obtain ⟨p2, hp2⟩ := b.trail
  refine ⟨b.domlen.trans a.domlen, Nat.le_trans b.tv a.tv,
    fun j c h => a.shrink j c (b.shrink j c h),
    ⟨p2 ++ p1, by rw [hp2, hp1, List.append_assoc]⟩, ?_, fun h => b.good (a.good h)⟩
  intro k hk
  have hk2 : k ≤ st2.trail.length := by
    rw [hp1, List.length_append]
    omega
  rw [b.restore k hk2, a.restore k hk]

/-- A queue change leaves every `PLike` fact intact. -/
theorem PLike.queue_change {st : State} (q : List Nat) :
    PLike st { st with queue := q } :=
  ⟨Eq.refl _, Nat.le_refl _, fun _ _ h => h, ⟨[], (List.nil_append _).symm⟩,
    fun _ _ => Eq.refl _, fun h => h⟩

/-- Constraint, watcher and branch bookkeeping of the engine is never
touched by the drain; the state moves by a `PLike` step. -/
theorem propagateFuel_frame : ∀ (f : Nat) (e : Engine) (any : Bool) (r : POut)
    (e' : Engine), propagateFuel f e any = (r, e') →
    e'.constraints = e.constraints ∧ e'.watchers = e.watchers ∧
    e'.branches = e.branches ∧ PLike e.state e'.state := by
  intro f
  induction f with
  | zero =>
    intro e any r e' h
    simp only [propagateFuel, Prod.mk.injEq] at h
    rw [← h.2]
    exact ⟨rfl, rfl, rfl, PLike.prefl _⟩
  | succ f ih =>
    intro e any r e' h
    simp only [propagateFuel] at h
    split at h
    · simp only [Prod.mk.injEq] at h
      rw [← h.2]
      exact ⟨rfl, rfl, rfl, PLike.prefl _⟩
    · rename_i ci rest hq
      split at h
      · simp only [Prod.mk.injEq] at h
        rw [← h.2]
        exact ⟨rfl, rfl, rfl, PLike.queue_change rest⟩
      · rename_i c hget
        split at h
        · rename_i changed st1 hcp
          have hstep : PLike e.state st1 :=
            (PLike.queue_change rest).ptrans (cprop_nlike hcp).plike
          cases changed
          · rw [if_neg (by simp : ¬(false = true))] at h
            obtain ⟨g1, g2, g3, g4⟩ := ih _ _ _ _ h
            exact ⟨g1, g2, g3, hstep.ptrans g4⟩
          · rw [if_pos rfl] at h
            obtain ⟨g1, g2, g3, g4⟩ := ih _ _ _ _ h
            exact ⟨g1, g2, g3, (hstep.ptrans (PLike.queue_change _)).ptrans g4⟩
        · rename_i st1 hcp
          simp only [Prod.mk.injEq] at h
          rw [← h.2]
          exact ⟨rfl, rfl, rfl,
            (PLike.queue_change rest).ptrans (cprop_nlike hcp).plike⟩
        · rename_i st1 hcp
          simp only [Prod.mk.injEq] at h
          rw [← h.2]
          exact ⟨rfl, rfl, rfl,
            (PLike.queue_change rest).ptrans (cprop_nlike hcp).plike⟩

theorem length_flatMap_nat (f : Nat → List Nat) (l : List Nat) :
    (l.flatMap f).length = (l.map (fun a => (f a).length)).sum := by
  induction l with
  | nil => rfl
  | cons a l ih => simp [List.flatMap_cons, ih]

/-- No panic ever escapes `narrowPair`. -/
theorem narrowPair_no_panic {st : State} {a b : CellIx} {ma mb : Domain} {r : CRes}
    {st' : State} (h : narrowPair st a ma b mb = (r, st')) : r ≠ .panicked := by
  refine narrowPair_rec h (fun _ hr => by rw [hr]; simp)
    (fun ca st1 h1 h2 hr => by rw [hr]; simp)
    (fun ca cb st1 h1 h2 hr => by rw [hr]; simp)

theorem adHidden_no_panic (cnt : Nat → Nat) (lastp : Nat → Option CellIx)
    (hlp : ∀ d, cnt d = 1 → (lastp d).isSome = true) :
    ∀ (l : List Nat) (ch : Bool) (st : State) (r : CRes) (st' : State),
    adHidden cnt lastp l ch st = (r, st') → r ≠ .panicked := by
  intro l
  induction l with
  | nil =>
    intro ch st r st' h
    simp only [adHidden, Prod.mk.injEq] at h
    rw [← h.1]
    simp
  | cons d ds ih =>
    intro ch st r st' h
    simp only [adHidden] at h
    by_cases hc : cnt d = 1
    · rw [if_pos hc] at h
      split at h
      · rename_i heq
        have := hlp d hc
        rw [heq] at this
        simp at this
      · rename_i i heq
        split at h
        · exact ih _ _ _ _ h
        · rename_i st1 heq2
          simp only [Prod.mk.injEq] at h
          rw [← h.1]
          simp
    · rw [if_neg hc] at h
      exact ih _ _ _ _ h

theorem adElim_no_panic (taken : Domain) :
    ∀ (l : List CellIx) (ch : Bool) (st : State) (r : CRes) (st' : State),
    adElim taken l ch st = (r, st') → r ≠ .panicked := by
  intro l
  induction l with
  | nil =>
    intro ch st r st' h
    simp only [adElim, Prod.mk.injEq] at h
    rw [← h.1]
    simp
  | cons i is ih =>
    intro ch st r st' h
    simp only [adElim] at h
    by_cases hc : count_ones (st.domains.getD i 0) = 1
    · rw [if_pos hc] at h
      exact ih _ _ _ _ h
    · rw [if_neg hc] at h
      split at h
      · exact ih _ _ _ _ h
      · rename_i st1 heq2
        simp only [Prod.mk.injEq] at h
        rw [← h.1]
        simp

theorem adCount_lastPos_isSome {st : State} {cells : Fin 9 → CellIx} {d : Nat}
    (h : adCount st cells d = 1) : (adLastPos st cells d).isSome = true := by
  unfold adLastPos
  rw [List.getLast?_isSome]
  intro hnil
  unfold adCount at h
  rw [hnil] at h
  simp at h

theorem all_diff_no_panic {st : State} {cells : Fin 9 → CellIx} {r : CRes}
    {st' : State} (h : propagate_all_diff st cells = (r, st')) : r ≠ .panicked := by
  unfold propagate_all_diff at h
  by_cases h1 : (adCells cells).any (fun i => st.domains.getD i 0 == 0) = true
  · rw [if_pos h1] at h
    simp only [Prod.mk.injEq] at h
    rw [← h.1]
    simp
  · rw [if_neg h1] at h
    by_cases h2 : adDupCheck st cells = true
    · rw [if_pos h2] at h
      simp only [Prod.mk.injEq] at h
      rw [← h.1]
      simp
    · rw [if_neg h2] at h
      split at h
      · rename_i ch st1 hh
        by_cases ht : adTaken st cells ≠ 0
        · rw [if_pos ht] at h
          exact adElim_no_panic _ _ _ _ _ _ h
        · rw [if_neg ht] at h
          simp only [Prod.mk.injEq] at h
          rw [← h.1]
          simp
      · rename_i st1 hh
        simp only [Prod.mk.injEq] at h
        rw [← h.1]
        simp
      · rename_i st1 hh
        exact absurd (adHidden_no_panic _ _
          (fun d hd => adCount_lastPos_isSome hd) _ _ _ _ _ hh) (by simp)

theorem cprop_no_panic {c : Constraint} {st : State} {r : CRes} {st' : State}
    (h : c.propagate st = (r, st')) (hc : c.isThermo = false) : r ≠ .panicked := by
  match c with
  | .AllDifferent cells => exact all_diff_no_panic h
  | .KropkiWhite a b =>
    unfold Constraint.propagate propagate_kropki_white at h
    exact narrowPair_no_panic h
  | .KropkiBlack a b =>
    unfold Constraint.propagate propagate_kropki_black at h
    exact narrowPair_no_panic h
  | .Thermo cells => simp [Constraint.isThermo] at hc

/-- Well-formed engine: queue and watcher entries index into the
constraint list, and no unimplemented `Thermo` constraint is registered. -/
def WfE (e : Engine) : Prop :=
  (∀ ci ∈ e.state.queue, ci < e.constraints.length) ∧
  (∀ c ∈ e.constraints, c.isThermo = false) ∧
  (∀ l ∈ e.watchers, ∀ ci ∈ l, ci < e.constraints.length)

theorem scopeW_le_watchW {e : Engine} {c : Constraint} (hc : c ∈ e.constraints) :
    scopeW e c ≤ watchW e :=
  List.le_sum_of_mem (List.mem_map_of_mem (scopeW e) hc)

theorem propagateFuel_no_fuelOut : ∀ (f : Nat) (e : Engine) (any : Bool),
    e.state.queue.length + totalVal e.state * watchW e < f →
    (propagateFuel f e any).1 ≠ .fuelOut := by
  intro f
  induction f with
  | zero =>
    intro e any hf
    omega
  | succ f ih =>
    intro e any hf
    simp only [propagateFuel]
    split
    · simp
    · rename_i ci rest hq
      split
    -- out-of-range constraint index: panic, not fuel exhaustion
      · simp
      · rename_i c hget
        split
        · rename_i changed st1 hcp
          have hcmem : c ∈ e.constraints := by
            rcases List.getElem?_eq_some.mp hget with ⟨hlt, hget2⟩
            rw [← hget2]
            exact List.getElem_mem hlt
          have hqlen : e.state.queue.length = rest.length + 1 := by
            rw [hq]
            rfl
          cases changed
          · rw [if_neg (by simp : ¬(false = true))]
            have hst1 : st1 = { e.state with queue := rest } := cprop_false hcp
            refine ih _ _ ?_
            rw [hst1]
            show rest.length + totalVal e.state * watchW e < f
            omega
          · rw [if_pos rfl]
            have hnl := cprop_nlike hcp
            have htv0 := cprop_true_lt hcp
            have htv : totalVal st1 + 1 ≤ totalVal e.state := htv0
            have hqq : st1.queue = rest := hnl.queue
            refine ih _ _ ?_
            show (st1.queue ++ c.scope.flatMap (fun j => e.watchers.getD j [])).length +
              totalVal st1 * watchW e < f
            simp only [List.length_append, hqq]
            have hflat : (Constraint.scope c |>.flatMap
                (fun j => e.watchers.getD j [])).length = scopeW e c := by
              rw [length_flatMap_nat]
              rfl
            have hsw := scopeW_le_watchW hcmem
            have hmul : totalVal st1 * watchW e + watchW e ≤
                totalVal e.state * watchW e := by
              have := Nat.mul_le_mul_right (watchW e) htv
              rw [Nat.succ_mul] at this
              exact this
            rw [hflat]
            omega
        · rename_i st1 hcp
          simp
        · rename_i st1 hcp
          simp

theorem propagateFuel_ok_queue : ∀ (f : Nat) (e : Engine) (any : Bool) (s : Solve)
    (e' : Engine), propagateFuel f e any = (.ok s, e') → e'.state.queue = [] := by
  intro f
  induction f with
  | zero =>
    intro e any s e' h
    simp [propagateFuel] at h
  | succ f ih =>
    intro e any s e' h
    simp only [propagateFuel] at h
    split at h
    · rename_i hq
      simp only [Prod.mk.injEq] at h
      rw [← h.2]
      exact hq
    · rename_i ci rest hq
      split at h
      · simp at h
      · rename_i c hget
        split at h
        · exact ih _ _ _ _ h
        · simp at h
        · simp at h

theorem propagateFuel_progress_lt : ∀ (f : Nat) (e : Engine) (any : Bool)
    (e' : Engine), propagateFuel f e any = (.ok .Progress, e') →
    any = true ∨ totalVal e'.state < totalVal e.state := by
  intro f
  induction f with
  | zero =>
    intro e any e' h
    simp [propagateFuel] at h
  | succ f ih =>
    intro e any e' h
    simp only [propagateFuel] at h
    split at h
    · rename_i hq
      simp only [Prod.mk.injEq, POut.ok.injEq] at h
      cases any
      · rw [if_neg (by simp : ¬(false = true))] at h
        cases h.1
      · exact Or.inl rfl
    · rename_i ci rest hq
      split at h
      · simp at h
      · rename_i c hget
        split at h
        · rename_i changed st1 hcp
          cases changed
          · rw [if_neg (by simp : ¬(false = true))] at h
            have hst1 : st1 = { e.state with queue := rest } := cprop_false hcp
            rcases ih _ _ _ h with hany | hlt
            · cases any
              · simp at hany
              · exact Or.inl rfl
            · refine Or.inr ?_
              rw [hst1] at hlt
              exact hlt
          · rw [if_pos rfl] at h
            refine Or.inr ?_
            have htv0 := cprop_true_lt hcp
            have htv : totalVal st1 < totalVal e.state := htv0
            have hframe := propagateFuel_frame _ _ _ _ _ h
            have htv2 : totalVal e'.state ≤ totalVal st1 := hframe.2.2.2.tv
            exact Nat.lt_of_le_of_lt htv2 htv
        · simp at h
        · simp at h

theorem propagateFuel_no_panic : ∀ (f : Nat) (e : Engine) (any : Bool),
    WfE e → (propagateFuel f e any).1 ≠ .panicked := by
  intro f
  induction f with
  | zero =>
    intro e any hwf
    simp [propagateFuel]
  | succ f ih =>
    intro e any hwf
    simp only [propagateFuel]
    split
    · simp
    · rename_i ci rest hq
      have hci : ci < e.constraints.length :=
        hwf.1 ci (by rw [hq]; exact List.mem_cons_self _ _)
      split
      · rename_i hget
        rw [List.getElem?_eq_getElem hci] at hget
        cases hget
      · rename_i c hget
        have hcmem : c ∈ e.constraints := by
          rcases List.getElem?_eq_some.mp hget with ⟨hlt, hget2⟩
          rw [← hget2]
          exact List.getElem_mem hlt
        split
        · rename_i changed st1 hcp
          have hqmem : ∀ x ∈ rest, x < e.constraints.length := by
            intro x hx
            exact hwf.1 x (by rw [hq]; exact List.mem_cons_of_mem _ hx)
          cases changed
          · rw [if_neg (by simp : ¬(false = true))]
            refine ih _ _ ⟨?_, hwf.2.1, hwf.2.2⟩
            have hst1 : st1 = { e.state with queue := rest } := cprop_false hcp
            rw [hst1]
            exact hqmem
          · rw [if_pos rfl]
            refine ih _ _ ⟨?_, hwf.2.1, hwf.2.2⟩
            simp only [Engine.reEnqueue]
            intro x hx
            have hqq : st1.queue = rest := (cprop_nlike hcp).queue
            rw [hqq] at hx
            rcases List.mem_append.mp hx with hx1 | hx2
            · exact hqmem x hx1
            · rcases List.mem_flatMap.mp hx2 with ⟨j, hj, hjx⟩
              by_cases hjw : j < e.watchers.length
              · refine hwf.2.2 (e.watchers.getD j []) ?_ x hjx
                rw [List.getD_eq_getElem _ _ hjw]
                exact List.getElem_mem hjw
              · rw [List.getD_eq_default _ _ (Nat.le_of_not_lt hjw)] at hjx
                simp at hjx
        · rename_i st1 hcp
          simp
        · rename_i st1 hcp
          exact absurd (cprop_no_panic hcp (hwf.2.1 c hcmem)) (by simp)

theorem propagateFuel_wf_queue : ∀ (f : Nat) (e : Engine) (any : Bool) (r : POut)
    (e' : Engine), propagateFuel f e any = (r, e') →
    (∀ ci ∈ e.state.queue, ci < e.constraints.length) →
    (∀ l ∈ e.watchers, ∀ ci ∈ l, ci < e.constraints.length) →
    ∀ x ∈ e'.state.queue, x < e.constraints.length := by
  intro f
  induction f with
  | zero =>
    intro e any r e' h hq hw
    simp only [propagateFuel, Prod.mk.injEq] at h
    rw [← h.2]
    exact hq
  | succ f ih =>
    intro e any r e' h hq hw
    simp only [propagateFuel] at h
    split at h
    · rename_i hqe
      simp only [Prod.mk.injEq] at h
      rw [← h.2]
      exact hq
    · rename_i ci rest hqe
      have hqrest : ∀ x ∈ rest, x < e.constraints.length := by
        intro x hx
        exact hq x (by rw [hqe]; exact List.mem_cons_of_mem _ hx)
      split at h
      · simp only [Prod.mk.injEq] at h
        rw [← h.2]
        exact hqrest
      · rename_i c hget
        split at h
        · rename_i changed st1 hcp
          have hqst1 : st1.queue = rest := (cprop_nlike hcp).queue
          cases changed
          · rw [if_neg (by simp : ¬(false = true))] at h
            have hres := ih _ _ _ _ h (by
              intro x hx
              rw [hqst1] at hx
              exact hqrest x hx) hw
            exact hres
          · rw [if_pos rfl] at h
            have hres := ih _ _ _ _ h (by
              show ∀ x ∈ st1.queue ++ c.scope.flatMap (fun j => e.watchers.getD j []),
                x < e.constraints.length
              intro x hx
              rcases List.mem_append.mp hx with hx1 | hx2
              · rw [hqst1] at hx1
                exact hqrest x hx1
              · rcases List.mem_flatMap.mp hx2 with ⟨j, hj, hjx⟩
                by_cases hjw : j < e.watchers.length
                · refine hw (e.watchers.getD j []) ?_ x hjx
                  rw [List.getD_eq_getElem _ _ hjw]
                  exact List.getElem_mem hjw
                · rw [List.getD_eq_default _ _ (Nat.le_of_not_lt hjw)] at hjx
                  simp at hjx) hw
            exact hres
        · rename_i st1 hcp
          simp only [Prod.mk.injEq] at h
          rw [← h.2]
          show ∀ x ∈ st1.queue, x < e.constraints.length
          rw [(cprop_nlike hcp).queue]
          exact hqrest
        · rename_i st1 hcp
          simp only [Prod.mk.injEq] at h
          rw [← h.2]
          show ∀ x ∈ st1.queue, x < e.constraints.length
          rw [(cprop_nlike hcp).queue]
          exact hqrest

/-! ### The `Engine.propagate` wrapper -/

theorem engine_propagate_frame {e : Engine} {r : POut} {e' : Engine}
    (h : e.propagate = (r, e')) :
    e'.constraints = e.constraints ∧ e'.watchers = e.watchers ∧
    e'.branches = e.branches ∧ PLike e.state e'.state :=
  propagateFuel_frame _ _ _ _ _ h

theorem engine_propagate_no_fuelOut (e : Engine) : (e.propagate).1 ≠ .fuelOut :=
  propagateFuel_no_fuelOut _ _ _ (by unfold propBound; omega)

theorem engine_propagate_ok_queue {e : Engine} {s : Solve} {e' : Engine}
    (h : e.propagate = (.ok s, e')) : e'.state.queue = [] :=
  propagateFuel_ok_queue _ _ _ _ _ h

theorem engine_propagate_progress_lt {e : Engine} {e' : Engine}
    (h : e.propagate = (.ok .Progress, e')) :
    totalVal e'.state < totalVal e.state := by
  rcases propagateFuel_progress_lt _ _ _ _ h with hany | hlt
  · cases hany
  · exact hlt

theorem engine_propagate_no_panic {e : Engine} (hwf : WfE e) :
    (e.propagate).1 ≠ .panicked :=
  propagateFuel_no_panic _ _ _ hwf

theorem engine_propagate_wfe {e : Engine} {r : POut} {e' : Engine}
    (h : e.propagate = (r, e')) (hwf : WfE e) : WfE e' := by
  obtain ⟨hc, hw, _, _⟩ := engine_propagate_frame h
  refine ⟨?_, hc ▸ hwf.2.1, ?_⟩
  · intro ci hci
    rw [hc]
    exact propagateFuel_wf_queue _ _ _ _ _ h hwf.1 hwf.2.2 ci hci
  · rw [hc, hw]
    exact hwf.2.2

theorem engine_propagate_empty {e : Engine} (hq : e.state.queue = []) :
    e.propagate = (.ok .Stalled, e) := by
  unfold Engine.propagate propBound
  rw [hq]
  simp only [List.length_nil, Nat.zero_add]
  simp [propagateFuel, hq]

/-! ### Claim C7: loading givens -/

theorem testBit_shiftLeft_one {d b : Nat} (h : (1 <<< d).testBit b = true) : b = d := by
  rw [Nat.shiftLeft_eq, Nat.one_mul] at h
  by_contra hne
  rw [Nat.testBit_two_pow_of_ne (fun hh => hne hh.symm)] at h
  cases h

theorem subset_pow2 {y d : Nat} (h : ∀ b, y.testBit b = true → (1 <<< d).testBit b = true) :
    y = 0 ∨ y = 1 <<< d := by
  by_cases hd : y.testBit d = true
  · right
    apply Nat.eq_of_testBit_eq
    intro b
    by_cases hb : b = d
    · subst hb
      rw [hd, testBit_shiftLeft_one_self]
    · have hy : y.testBit b = false := by
        by_contra hyb
        rw [Bool.not_eq_false] at hyb
        exact hb (testBit_shiftLeft_one (h b hyb))
      rw [hy, Nat.shiftLeft_eq, Nat.one_mul,
        Nat.testBit_two_pow_of_ne (fun hh => hb hh.symm)]
  · left
    apply Nat.eq_of_testBit_eq
    intro b
    rw [Nat.zero_testBit]
    by_cases hb : b = d
    · subst hb
      exact Bool.not_eq_true _ ▸ hd
    · by_contra hyb
      rw [Bool.not_eq_false] at hyb
      exact hb (testBit_shiftLeft_one (h b hyb))

theorem and_pow2_cases (x d : Nat) : x &&& (1 <<< d) = 0 ∨ x &&& (1 <<< d) = 1 <<< d :=
  subset_pow2 (fun b hb => by
    rw [Nat.testBit_and, Bool.and_eq_true] at hb
    exact hb.2)

theorem narrow_getD_ne {st : State} {i : CellIx} {mask : Domain} {r : NRes}
    {st1 : State} (h : st.narrow i mask = (r, st1)) {j : Nat} (hj : j ≠ i) :
    st1.domains.getD j 0 = st.domains.getD j 0 := by
  refine narrow_rec h (fun h0 hr hst => by rw [hst])
    (fun h0 hne hr hst => ?_) (fun h0 heq hr hst => by rw [hst])
  rw [hst]
  exact getD_set_ne _ _ (fun hh => hj hh.symm)

/-- A successful `assign` of a one-bit mask leaves exactly that bit in the
cell. -/
theorem assign_pow2_ok {st : State} {i : CellIx} {d : Nat} {c : Bool} {st1 : State}
    (h : st.assign i (1 <<< d) = (.ok c, st1)) :
    st1.domains.getD i 0 = 1 <<< d := by
  unfold State.assign at h
  refine narrow_rec h (fun h0 hr hst => by cases hr)
    (fun h0 hne hr hst => ?_) (fun h0 heq hr hst => ?_)
  · have hi : i < st.domains.length := by
      by_contra hk
      rw [List.getD_eq_default _ _ (Nat.le_of_not_lt hk)] at h0
      exact h0 (by simp)
    rw [hst]
    show (st.domains.set i _).getD i 0 = 1 <<< d
    rw [getD_set_self _ _ _ hi]
    rcases and_pow2_cases (st.domains.getD i 0) d with hz | hs
    · exact absurd hz h0
    · exact hs
  · rw [hst]
    rcases and_pow2_cases (st.domains.getD i 0) d with hz | hs
    · exact absurd hz h0
    · rw [← heq, hs]

theorem loadLoop_frame : ∀ (l : List (Nat × Nat)) (e : Engine) (r : LRes)
    (e1 : Engine), loadLoop l e = (r, e1) →
    e1.constraints = e.constraints ∧ e1.watchers = e.watchers ∧
    e1.branches = e.branches ∧ PLike e.state e1.state := by
  intro l
  induction l with
  | nil =>
    intro e r e1 h
    simp only [loadLoop, Prod.mk.injEq] at h
    rw [← h.2]
    exact ⟨rfl, rfl, rfl, PLike.prefl _⟩
  | cons p rest ih =>
    obtain ⟨i, ch⟩ := p
    intro e r e1 h
    simp only [loadLoop] at h
    split at h
    · exact ih _ _ _ h
    · split at h
      · simp only [Prod.mk.injEq] at h
        rw [← h.2]
        exact ⟨rfl, rfl, rfl, PLike.prefl _⟩
      · split at h
        · rename_i st1 ha
          simp only [Prod.mk.injEq] at h
          rw [← h.2]
          exact ⟨rfl, rfl, rfl, (narrow_nlike ha).plike⟩
        · rename_i c st1 ha
          obtain ⟨g1, g2, g3, g4⟩ := ih _ _ _ h
          exact ⟨g1, g2, g3,
            ((narrow_nlike ha).plike.ptrans (PLike.queue_change _)).ptrans g4⟩

theorem loadLoop_wfe : ∀ (l : List (Nat × Nat)) (e : Engine) (r : LRes)
    (e1 : Engine), loadLoop l e = (r, e1) → WfE e → WfE e1 := by
  intro l
  induction l with
  | nil =>
    intro e r e1 h hwf
    simp only [loadLoop, Prod.mk.injEq] at h
    rw [← h.2]
    exact hwf
  | cons p rest ih =>
    obtain ⟨i, ch⟩ := p
    intro e r e1 h hwf
    simp only [loadLoop] at h
    split at h
    · exact ih _ _ _ h hwf
    · split at h
      · simp only [Prod.mk.injEq] at h
        rw [← h.2]
        exact hwf
      · split at h
        · rename_i st1 ha
          simp only [Prod.mk.injEq] at h
          rw [← h.2]
          refine ⟨?_, hwf.2.1, hwf.2.2⟩
          show ∀ ci ∈ st1.queue, ci < e.constraints.length
          rw [narrow_queue ha]
          exact hwf.1
        · rename_i c st1 ha
          refine ih _ _ _ h ⟨?_, hwf.2.1, hwf.2.2⟩
          show ∀ ci ∈ st1.queue ++ e.watchers.getD i [], ci < e.constraints.length
          intro ci hci
          rcases List.mem_append.mp hci with h1 | h2
          · rw [narrow_queue ha] at h1
            exact hwf.1 ci h1
          · by_cases hiw : i < e.watchers.length
            · refine hwf.2.2 (e.watchers.getD i []) ?_ ci h2
              rw [List.getD_eq_getElem _ _ hiw]
              exact List.getElem_mem hiw
            · rw [List.getD_eq_default _ _ (Nat.le_of_not_lt hiw)] at h2
              simp at h2

/-- On an engine whose watcher lists are all empty, the load loop keeps
the queue empty. -/
theorem loadLoop_queue_nil : ∀ (l : List (Nat × Nat)) (e : Engine) (r : LRes)
    (e1 : Engine), loadLoop l e = (r, e1) →
    (∀ i, e.watchers.getD i [] = []) → e.state.queue = [] →
    e1.state.queue = [] := by
  intro l
  induction l with
  | nil =>
    intro e r e1 h hw hq
    simp only [loadLoop, Prod.mk.injEq] at h
    rw [← h.2]
    exact hq
  | cons p rest ih =>
    obtain ⟨i, ch⟩ := p
    intro e r e1 h hw hq
    simp only [loadLoop] at h
    split at h
    · exact ih _ _ _ h hw hq
    · split at h
      · simp only [Prod.mk.injEq] at h
        rw [← h.2]
        exact hq
      · split at h
        · rename_i st1 ha
          simp only [Prod.mk.injEq] at h
          rw [← h.2]
          show st1.queue = []
          rw [narrow_queue ha]
          exact hq
        · rename_i c st1 ha
          refine ih _ _ _ h (by
            intro j
            exact hw j) ?_
          show st1.queue ++ e.watchers.getD i [] = []
          rw [narrow_queue ha, hq, hw i]
          rfl

/-- The facts the per-character loop establishes when it succeeds, with
the enumeration starting at offset `k`: cells below `k` are untouched,
every digit character has been assigned, every blank cell is untouched. -/
theorem loadLoop_ok_facts : ∀ (bytes : List Nat) (k : Nat) (e : Engine)
    (e1 : Engine), loadLoop (List.enumFrom k bytes) e = (.ok, e1) →
    (∀ j, j < k → e1.state.domains.getD j 0 = e.state.domains.getD j 0) ∧
    (∀ p, p < bytes.length → 49 ≤ bytes.getD p 0 → bytes.getD p 0 ≤ 57 →
      e1.state.domains.getD (k + p) 0 = 1 <<< (bytes.getD p 0 - 48)) ∧
    (∀ p, p < bytes.length → (bytes.getD p 0 = 46 ∨ bytes.getD p 0 = 48) →
      e1.state.domains.getD (k + p) 0 = e.state.domains.getD (k + p) 0) := by
  intro bytes
  induction bytes with
  | nil =>
    intro k e e1 h
    simp only [List.enumFrom, loadLoop, Prod.mk.injEq] at h
    rw [← h.2]
    refine ⟨fun j hj => rfl, fun p hp => by simp at hp, fun p hp => by simp at hp⟩
  | cons b rest ih =>
    intro k e e1 h
    rw [List.enumFrom_cons] at h
    simp only [loadLoop] at h
    split at h
    · rename_i hblank
      obtain ⟨g1, g2, g3⟩ := ih (k + 1) e e1 h
      rw [Bool.or_eq_true, beq_iff_eq, beq_iff_eq] at hblank
      refine ⟨fun j hj => g1 j (by omega), ?_, ?_⟩
      · intro p hp h49 h57
        match p with
        | 0 =>
          simp only [List.getD_cons_zero] at h49 h57
          rcases hblank with rfl | rfl <;> omega
        | q + 1 =>
          have := g2 q (by simpa using hp) (by simpa using h49) (by simpa using h57)
          rw [show k + (q + 1) = k + 1 + q from by omega]
          simpa using this
      · intro p hp hpb
        match p with
        | 0 =>
          rw [Nat.add_zero]
          exact g1 k (by omega)
        | q + 1 =>
          have := g3 q (by simpa using hp) (by simpa using hpb)
          rw [show k + (q + 1) = k + 1 + q from by omega]
          simpa using this
    · rename_i hblank
      split at h
      · simp at h
      · rename_i hdigit
        split at h
        · simp at h
        · rename_i c st1 ha
          obtain ⟨g1, g2, g3⟩ := ih (k + 1) _ e1 h
          rw [Bool.not_eq_true, Bool.or_eq_false_iff, beq_eq_false_iff_ne,
            beq_eq_false_iff_ne] at hblank
          refine ⟨?_, ?_, ?_⟩
          · intro j hj
            rw [g1 j (by omega)]
            show st1.domains.getD j 0 = e.state.domains.getD j 0
            exact narrow_getD_ne ha (by omega)
          · intro p hp h49 h57
            match p with
            | 0 =>
              rw [Nat.add_zero, g1 k (by omega)]
              show st1.domains.getD k 0 = 1 <<< ((b :: rest).getD 0 0 - 48)
              simp only [List.getD_cons_zero]
              exact assign_pow2_ok ha
            | q + 1 =>
              have := g2 q (by simpa using hp) (by simpa using h49) (by simpa using h57)
              rw [show k + (q + 1) = k + 1 + q from by omega]
              simpa using this
          · intro p hp hpb
            match p with
            | 0 =>
              simp only [List.getD_cons_zero] at hpb
              rcases hpb with rfl | rfl
              · exact absurd rfl hblank.1
              · exact absurd rfl hblank.2
            | q + 1 =>
              have := g3 q (by simpa using hp) (by simpa using hpb)
              rw [show k + (q + 1) = k + 1 + q from by omega]
              have h4 : st1.domains.getD (k + 1 + q) 0 =
                  e.state.domains.getD (k + 1 + q) 0 :=
                narrow_getD_ne ha (by omega)
              rw [← h4]
              simpa using this

/-- Reaching the first invalid character: every earlier character is a
blank, so the loop fails exactly there, leaving the engine unchanged. -/
theorem loadLoop_invalid : ∀ (bytes : List Nat) (k p : Nat) (e : Engine),
    p < bytes.length →
    (∀ q, q < p → bytes.getD q 0 = 46 ∨ bytes.getD q 0 = 48) →
    bytes.getD p 0 ≠ 46 → bytes.getD p 0 ≠ 48 →
    ¬(49 ≤ bytes.getD p 0 ∧ bytes.getD p 0 ≤ 57) →
    loadLoop (List.enumFrom k bytes) e =
      (.err (.invalidChar (k + p) (bytes.getD p 0)), e) := by
  intro bytes
  induction bytes with
  | nil =>
    intro k p e hp
    simp at hp
  | cons b rest ih =>
    intro k p e hp hq h46 h48 h4957
    rw [List.enumFrom_cons]
    simp only [loadLoop]
    match p with
    | 0 =>
      simp only [List.getD_cons_zero] at h46 h48 h4957
      rw [if_neg (by simp [h46, h48]), if_pos (by simp; omega)]
      rw [Nat.add_zero]
      rfl
    | q + 1 =>
      have hb : b = 46 ∨ b = 48 := by
        have := hq 0 (by omega)
        simpa using this
      rw [if_pos (by rcases hb with rfl | rfl <;> simp)]
      have := ih (k + 1) q e (by simpa using hp)
        (fun q2 hq2 => by simpa using hq q2.succ (by omega))
        (by simpa using h46) (by simpa using h48) (by simpa using h4957)
      rw [this, show k + 1 + q = k + (q + 1) from by omega]
      rfl

theorem loadLoop_no_panic : ∀ (l : List (Nat × Nat)) (e : Engine) (r : LRes)
    (e1 : Engine), loadLoop l e = (r, e1) → r ≠ .panicked := by
  intro l
  induction l with
  | nil =>
    intro e r e1 h
    simp only [loadLoop, Prod.mk.injEq] at h
    rw [← h.1]
    simp
  | cons p rest ih =>
    obtain ⟨i, ch⟩ := p
    intro e r e1 h
    simp only [loadLoop] at h
    split at h
    · exact ih _ _ _ h
    · split at h
      · simp only [Prod.mk.injEq] at h
        rw [← h.1]
        simp
      · split at h
        · rename_i st1 ha
          simp only [Prod.mk.injEq] at h
          rw [← h.1]
          simp
        · exact ih _ _ _ h

theorem getD_replicate_mask (p : Nat) (hp : p < NN) :
    (List.replicate NN DIGITS_MASK).getD p 0 = DIGITS_MASK := by
  rw [List.getD_eq_getElem _ _ (by simpa using hp)]
  exact List.getElem_replicate _ _

/-- C7.  `load_givens` fails with a length-mismatch error carrying the
non-whitespace count whenever that count is not 81, leaving the engine
untouched; on length-81 input the first non-blank, non-digit byte yields
a decode error carrying its position and character; on success every
digit character has pinned its cell to exactly that digit; the loader
does not crash on a well-formed engine (contradictions surface as error
values); and on the fresh engine blank characters leave their cells with
the full domain. -/
theorem load_givens_contract (e : Engine) (s : List Char) :
    ((givensBytes s).length ≠ NN →
      e.load_givens s = (.err (.needChars (givensBytes s).length), e)) ∧
    (∀ p, p < (givensBytes s).length → (givensBytes s).length = NN →
      (∀ q, q < p → (givensBytes s).getD q 0 = 46 ∨ (givensBytes s).getD q 0 = 48) →
      (givensBytes s).getD p 0 ≠ 46 → (givensBytes s).getD p 0 ≠ 48 →
      ¬(49 ≤ (givensBytes s).getD p 0 ∧ (givensBytes s).getD p 0 ≤ 57) →
      e.load_givens s = (.err (.invalidChar p ((givensBytes s).getD p 0)), e)) ∧
    (∀ e2, GoodS e.state → e.state.domains.length = NN →
      e.load_givens s = (.ok, e2) → ∀ p, p < NN →
      49 ≤ (givensBytes s).getD p 0 → (givensBytes s).getD p 0 ≤ 57 →
      e2.state.domains.getD p 0 = 1 <<< ((givensBytes s).getD p 0 - 48)) ∧
    (WfE e → (e.load_givens s).1 ≠ .panicked) ∧
    (∀ e2, Engine.new.load_givens s = (.ok, e2) → ∀ p, p < NN →
      ((givensBytes s).getD p 0 = 46 ∨ (givensBytes s).getD p 0 = 48) →
      e2.state.domains.getD p 0 = DIGITS_MASK) := by
  refine ⟨?_, ?_, ?_, ?_, ?_⟩
  · intro hlen
    unfold Engine.load_givens
    rw [if_pos hlen]
  · intro p hp hlen hqs h46 h48 h4957
    unfold Engine.load_givens
    rw [if_neg (by omega)]
    have hinv := loadLoop_invalid (givensBytes s) 0 p e hp hqs h46 h48 h4957
    rw [Nat.zero_add] at hinv
    show (match loadLoop (givensBytes s).enum e with
      | (.ok, e1) =>
        match e1.propagate with
        | (.ok _, e2) => ((.ok : LRes), e2)
        | (.contradiction, e2) => (.err .givensContradiction, e2)
        | (.panicked, e2) => (.panicked, e2)
        | (.fuelOut, e2) => (.panicked, e2)
      | (.err ge, e1) => (.err ge, e1)
      | (.panicked, e1) => (.panicked, e1)) =
      (.err (.invalidChar p ((givensBytes s).getD p 0)), e)
    rw [show loadLoop (givensBytes s).enum e =
      (.err (.invalidChar p ((givensBytes s).getD p 0)), e) from hinv]
  · intro e2 hg hlen hres p hp h49 h57
    unfold Engine.load_givens at hres
    by_cases hbl : (givensBytes s).length ≠ NN
    · rw [if_pos hbl] at hres
      simp at hres
    · rw [if_neg hbl] at hres
      split at hres
      · rename_i e1 hL
        split at hres
        · rename_i s2 e2b hP
          simp only [Prod.mk.injEq] at hres
          obtain ⟨g1, g2, g3⟩ := loadLoop_ok_facts (givensBytes s) 0 e e1 hL
          have hbit := g2 p (by omega) h49 h57
          rw [Nat.zero_add] at hbit
          have hframeL := loadLoop_frame _ _ _ _ hL
          have hframeP := engine_propagate_frame hP
          have hgood2 : GoodS e2b.state :=
            hframeP.2.2.2.good (hframeL.2.2.2.good hg)
          have hlen2 : e2b.state.domains.length = NN := by
            rw [hframeP.2.2.2.domlen, hframeL.2.2.2.domlen, hlen]
          have hne : e2b.state.domains.getD p 0 ≠ 0 := by
            have hmem : e2b.state.domains.getD p 0 ∈ e2b.state.domains := by
              rw [List.getD_eq_getElem _ _ (by omega)]
              exact List.getElem_mem (by omega)
            exact (hgood2.1 _ hmem).1
          have hsub : ∀ b, (e2b.state.domains.getD p 0).testBit b = true →
              ((1 : Nat) <<< ((givensBytes s).getD p 0 - 48)).testBit b = true := by
            intro b hb
            rw [← hbit]
            exact hframeP.2.2.2.shrink p b hb
          rw [← hres.2]
          rcases subset_pow2 hsub with hz | hbit2
          · exact absurd hz hne
          · exact hbit2
        · simp at hres
        · rename_i hP
          simp at hres
        · simp at hres
      · simp at hres
      · simp at hres
  · intro hwf
    simp only [Engine.load_givens]
    split
    · simp
    · split
      · rename_i e1 hL
        split
        · simp
        · simp
        · rename_i e2b hP
          have hwfe1 : WfE e1 := loadLoop_wfe _ _ _ _ hL hwf
          exact absurd (congrArg Prod.fst hP)
            (by simpa using engine_propagate_no_panic hwfe1)
        · rename_i e2b hP
          exact absurd (congrArg Prod.fst hP)
            (by simpa using engine_propagate_no_fuelOut e1)
      · rename_i ge e1 hL
        simp
      · rename_i e1 hL
        exact absurd (loadLoop_no_panic _ _ _ _ hL) (by simp)
  · intro e2 hres p hp hblank
    unfold Engine.load_givens at hres
    by_cases hbl : (givensBytes s).length ≠ NN
    · rw [if_pos hbl] at hres
      simp at hres
    · rw [if_neg hbl] at hres
      split at hres
      · rename_i e1 hL
        split at hres
        · rename_i s2 e2b hP
          simp only [Prod.mk.injEq] at hres
          obtain ⟨g1, g2, g3⟩ := loadLoop_ok_facts (givensBytes s) 0 Engine.new e1 hL
          have hbl2 := g3 p (by omega) hblank
          rw [Nat.zero_add] at hbl2
          have hq1 : e1.state.queue = [] := by
            refine loadLoop_queue_nil _ _ _ _ hL ?_ rfl
            intro i
            show (List.replicate NN ([] : List Nat)).getD i [] = []
            by_cases hi : i < NN
            · rw [List.getD_eq_getElem _ _ (by simpa using hi)]
              exact List.getElem_replicate _ _
            · exact List.getD_eq_default _ _ (by simpa using Nat.le_of_not_lt hi)
          have hPe : e1.propagate = (.ok .Stalled, e1) := engine_propagate_empty hq1
          rw [hPe] at hP
          simp only [Prod.mk.injEq, POut.ok.injEq] at hP
          rw [← hres.2, ← hP.2, hbl2]
          show (List.replicate NN DIGITS_MASK).getD p 0 = DIGITS_MASK
          exact getD_replicate_mask p hp
        · simp at hres
        · simp at hres
        · simp at hres
      · simp at hres
      · simp at hres

/-- Witness for C7: an 80-character input is rejected with the
length-mismatch error on the fresh engine. -/
theorem load_givens_contract_witness :
    (givensBytes (List.replicate 80 '5')).length ≠ NN ∧
    Engine.new.load_givens (List.replicate 80 '5') =
      (.err (.needChars 80), Engine.new) :=
  ⟨by decide, (load_givens_contract Engine.new (List.replicate 80 '5')).1 (by decide)⟩

/-! ### The search driver -/

/-- Facts preserved by a whole search subtree: the trail is only ever
extended or popped back to checkpoints at or above the entry length, so
restoring to any entry checkpoint is unaffected. -/
structure SLike (st st' : State) : Prop where
  domlen : st'.domains.length = st.domains.length
  trail : ∃ pre, st'.trail = pre ++ st.trail
  restore : ∀ k, k ≤ st.trail.length →
    btAux k st'.trail st'.domains = btAux k st.trail st.domains
  good : GoodS st → GoodS st'

theorem PLike.slike {st st' : State} (h : PLike st st') : SLike st st' :=
  ⟨h.domlen, h.trail, h.restore, h.good⟩

theorem SLike.srefl (st : State) : SLike st st :=
  ⟨Eq.refl _, ⟨[], (List.nil_append _).symm⟩, fun _ _ => Eq.refl _, id⟩

theorem SLike.strans {st1 st2 st3 : State} (a : SLike st1 st2) (b : SLike st2 st3) :
    SLike st1 st3 := by
  obtain ⟨p1, hp1⟩ := a.trail
  obtain ⟨p2, hp2⟩ := b.trail
  refine ⟨b.domlen.trans a.domlen,
    ⟨p2 ++ p1, by rw [hp2, hp1, List.append_assoc]⟩, ?_, fun h => b.good (a.good h)⟩
  intro k hk
  have hk2 : k ≤ st2.trail.length := by
    rw [hp1, List.length_append]
    omega
  rw [b.restore k hk2, a.restore k hk]

theorem SLike.squeue_change {st : State} (q : List Nat) :
    SLike st { st with queue := q } :=
  ⟨Eq.refl _, ⟨[], (List.nil_append _).symm⟩, fun _ _ => Eq.refl _, fun h => h⟩

/-- Popping a search subtree back to the entry checkpoint restores the
entry domains and trail exactly. -/
theorem backtrack_restores {st0 st1 : State} (hS : SLike st0 st1) :
    st1.backtrack_to st0.trail.length =
      { st0 with queue := st1.queue } := by
  unfold State.backtrack_to
  rw [hS.restore st0.trail.length (Nat.le_refl _), btAux_of_le (Nat.le_refl _)]

theorem searchLoop_frame : ∀ (f : Nat) (e : Engine) (r : LOut) (e' : Engine),
    searchLoop f e = (r, e') →
    e'.constraints = e.constraints ∧ e'.watchers = e.watchers ∧
    e'.branches = e.branches ∧ PLike e.state e'.state ∧ (WfE e → WfE e') := by
  intro f
  induction f with
  | zero =>
    intro e r e' h
    simp only [searchLoop, Prod.mk.injEq] at h
    rw [← h.2]
    exact ⟨rfl, rfl, rfl, PLike.prefl _, id⟩
  | succ f ih =>
    intro e r e' h
    simp only [searchLoop] at h
    split at h
    · rename_i e1 hP
      split at h
      · simp only [Prod.mk.injEq] at h
        rw [← h.2]
        obtain ⟨g1, g2, g3, g4⟩ := engine_propagate_frame hP
        exact ⟨g1, g2, g3, g4, engine_propagate_wfe hP⟩
      · obtain ⟨g1, g2, g3, g4⟩ := engine_propagate_frame hP
        obtain ⟨k1, k2, k3, k4, k5⟩ := ih _ _ _ h
        exact ⟨k1.trans g1, k2.trans g2, k3.trans g3, g4.ptrans k4,
          fun hw => k5 (engine_propagate_wfe hP hw)⟩
    · rename_i e1 hP
      simp only [Prod.mk.injEq] at h
      rw [← h.2]
      obtain ⟨g1, g2, g3, g4⟩ := engine_propagate_frame hP
      exact ⟨g1, g2, g3, g4, engine_propagate_wfe hP⟩
    · rename_i e1 hP
      simp only [Prod.mk.injEq] at h
      rw [← h.2]
      obtain ⟨g1, g2, g3, g4⟩ := engine_propagate_frame hP
      exact ⟨g1, g2, g3, g4, engine_propagate_wfe hP⟩
    · rename_i e1 hP
      simp only [Prod.mk.injEq] at h
      rw [← h.2]
      obtain ⟨g1, g2, g3, g4⟩ := engine_propagate_frame hP
      exact ⟨g1, g2, g3, g4, engine_propagate_wfe hP⟩
    · rename_i e1 hP
      simp only [Prod.mk.injEq] at h
      rw [← h.2]
      obtain ⟨g1, g2, g3, g4⟩ := engine_propagate_frame hP
      exact ⟨g1, g2, g3, g4, engine_propagate_wfe hP⟩
    · rename_i e1 hP
      simp only [Prod.mk.injEq] at h
      rw [← h.2]
      obtain ⟨g1, g2, g3, g4⟩ := engine_propagate_frame hP
      exact ⟨g1, g2, g3, g4, engine_propagate_wfe hP⟩

theorem searchLoop_cases : ∀ (f : Nat) (e : Engine) (r : LOut) (e' : Engine),
    searchLoop f e = (r, e') →
    r = .broke ∨ (r = .ret (.ret (.ok true)) ∧ e'.solved = true) ∨
    r = .ret (.ret (.ok false)) ∨ r = .ret .panicked ∨ r = .ret .fuelOut := by
  intro f
  induction f with
  | zero =>
    intro e r e' h
    simp only [searchLoop, Prod.mk.injEq] at h
    rw [← h.1]
    simp
  | succ f ih =>
    intro e r e' h
    simp only [searchLoop] at h
    split at h
    · split at h
      · rename_i hsol
        simp only [Prod.mk.injEq] at h
        rw [← h.1]
        exact Or.inr (Or.inl ⟨rfl, h.2 ▸ hsol⟩)
      · exact ih _ _ _ h
    · simp only [Prod.mk.injEq] at h
      rw [← h.1]
      simp
    · simp only [Prod.mk.injEq] at h
      rw [← h.1]
      simp
    · simp only [Prod.mk.injEq] at h
      rw [← h.1]
      simp
    · simp only [Prod.mk.injEq] at h
      rw [← h.1]
      simp
    · simp only [Prod.mk.injEq] at h
      rw [← h.1]
      simp

theorem searchLoop_no_panic : ∀ (f : Nat) (e : Engine), WfE e →
    (searchLoop f e).1 ≠ .ret .panicked := by
  intro f
  induction f with
  | zero =>
    intro e hwf
    simp [searchLoop]
  | succ f ih =>
    intro e hwf
    simp only [searchLoop]
    split
    · rename_i e1 hP
      split
      · simp
      · exact ih _ (engine_propagate_wfe hP hwf)
    · simp
    · simp
    · simp
    · rename_i e1 hP
      exact absurd (congrArg Prod.fst hP)
        (by simpa using engine_propagate_no_panic hwf)
    · simp

theorem searchLoop_no_fuelOut : ∀ (f : Nat) (e : Engine),
    totalVal e.state < f → (searchLoop f e).1 ≠ .ret .fuelOut := by
  intro f
  induction f with
  | zero =>
    intro e hf
    omega
  | succ f ih =>
    intro e hf
    simp only [searchLoop]
    split
    · rename_i e1 hP
      split
      · simp
      · refine ih _ ?_
        have := engine_propagate_progress_lt hP
        omega
    · simp
    · simp
    · simp
    · simp
    · rename_i e1 hP
      exact absurd (congrArg Prod.fst hP)
        (by simpa using engine_propagate_no_fuelOut e)

theorem watchers_getD_lt {ws : List (List Nat)} {n : Nat}
    (hw : ∀ l ∈ ws, ∀ ci ∈ l, ci < n) (j : Nat) :
    ∀ x ∈ ws.getD j [], x < n := by
  intro x hx
  by_cases hj : j < ws.length
  · refine hw (ws.getD j []) ?_ x hx
    rw [List.getD_eq_getElem _ _ hj]
    exact List.getElem_mem hj
  · rw [List.getD_eq_default _ _ (Nat.le_of_not_lt hj)] at hx
    simp at hx

theorem enqueue_all_wfe {e : Engine} (hwf : WfE e) : WfE e.enqueue_all := by
  refine ⟨?_, hwf.2.1, hwf.2.2⟩
  intro ci hci
  rcases List.mem_append.mp hci with h1 | h2
  · exact hwf.1 ci h1
  · exact List.mem_range.mp h2

theorem enqueue_cell_wfe {e : Engine} (hwf : WfE e) (i : CellIx) :
    WfE (e.enqueue_cell_constraints i) := by
  refine ⟨?_, hwf.2.1, hwf.2.2⟩
  intro ci hci
  rcases List.mem_append.mp hci with h1 | h2
  · exact hwf.1 ci h1
  · exact watchers_getD_lt hwf.2.2 i ci h2

theorem searchStep_frame : ∀ (f : Nat) (fr : Frame) (r : SRes) (e' : Engine),
    searchStep f fr = (r, e') →
    (∀ i tl ds e, fr = .branch i tl ds e → tl = e.state.trail.length) →
    e'.constraints = fr.engine.constraints ∧ e'.watchers = fr.engine.watchers ∧
    SLike fr.engine.state e'.state ∧ (WfE fr.engine → WfE e') := by
  intro f
  induction f with
  | zero =>
    intro fr r e' h hinv
    simp only [searchStep, Prod.mk.injEq] at h
    rw [← h.2]
    exact ⟨rfl, rfl, SLike.srefl _, id⟩
  | succ f ih =>
    intro fr r e' h hinv
    match fr with
    | .enter e =>
      simp only [searchStep] at h
      have hstep : ∀ e2 : Engine,
          (if e.state.trail.isEmpty && e.state.queue.isEmpty then e.enqueue_all else e) = e2 →
          e2.constraints = e.constraints ∧ e2.watchers = e.watchers ∧
          SLike e.state e2.state ∧ (WfE e → WfE e2) := by
        intro e2 he2
        split at he2
        · rw [← he2]
          exact ⟨rfl, rfl, SLike.squeue_change _, enqueue_all_wfe⟩
        · rw [← he2]
          exact ⟨rfl, rfl, SLike.srefl _, id⟩
      obtain ⟨q1, q2, q3, q4⟩ := hstep _ rfl
      split at h
      · rename_i r2 e1 hL
        simp only [Prod.mk.injEq] at h
        obtain ⟨g1, g2, g3, g4, g5⟩ := searchLoop_frame _ _ _ _ hL
        rw [← h.2]
        exact ⟨g1.trans q1, g2.trans q2, q3.strans g4.slike, fun hw => g5 (q4 hw)⟩
      · rename_i e1 hL
        obtain ⟨g1, g2, g3, g4, g5⟩ := searchLoop_frame _ _ _ _ hL
        have hcomp : SLike e.state e1.state := q3.strans g4.slike
        split at h
        · simp only [Prod.mk.injEq] at h
          rw [← h.2]
          exact ⟨g1.trans q1, g2.trans q2, hcomp, fun hw => g5 (q4 hw)⟩
        · split at h
          · simp only [Prod.mk.injEq] at h
            rw [← h.2]
            exact ⟨g1.trans q1, g2.trans q2, hcomp, fun hw => g5 (q4 hw)⟩
          · split at h
            · simp only [Prod.mk.injEq] at h
              rw [← h.2]
              exact ⟨g1.trans q1, g2.trans q2, hcomp, fun hw => g5 (q4 hw)⟩
            · rename_i i hmrv
              obtain ⟨k1, k2, k3, k4⟩ := ih _ _ _ h
                (by
                  intro i2 tl2 ds2 e2 heq
                  injection heq with h1 h2 h3 h4
                  rw [← h2, ← h4])
              exact ⟨k1.trans (g1.trans q1), k2.trans (g2.trans q2),
                hcomp.strans k3, fun hw => k4 (g5 (q4 hw))⟩
    | .branch i tl [] e =>
      simp only [searchStep, Prod.mk.injEq] at h
      rw [← h.2]
      exact ⟨rfl, rfl, SLike.srefl _, id⟩
    | .branch i tl (d :: ds) e =>
      have htl : tl = e.state.trail.length := hinv i tl (d :: ds) e rfl
      simp only [searchStep] at h
      split at h
      · rename_i c st1 ha
        split at h
        · rename_i e2 hrec
          simp only [Prod.mk.injEq] at h
          obtain ⟨k1, k2, k3, k4⟩ := ih _ _ _ hrec (by intro _ _ _ _ heq; cases heq)
          have hstep : SLike e.state st1 := (narrow_nlike ha).plike.slike
          rw [← h.2]
          refine ⟨k1, k2, hstep.strans ((SLike.squeue_change _).strans k3), ?_⟩
          intro hw
          have hq2 : ∀ ci ∈ st1.queue, ci < e.constraints.length := by
            rw [narrow_queue ha]
            exact hw.1
          exact k4 (enqueue_cell_wfe
            (e := ⟨st1, e.constraints, e.watchers, e.branches + 1⟩)
            ⟨hq2, hw.2.1, hw.2.2⟩ i)
        · rename_i e2 hrec
          simp only [Prod.mk.injEq] at h
          obtain ⟨k1, k2, k3, k4⟩ := ih _ _ _ hrec (by intro _ _ _ _ heq; cases heq)
          have hstep : SLike e.state st1 := (narrow_nlike ha).plike.slike
          rw [← h.2]
          refine ⟨k1, k2, hstep.strans ((SLike.squeue_change _).strans k3), ?_⟩
          intro hw
          have hq2 : ∀ ci ∈ st1.queue, ci < e.constraints.length := by
            rw [narrow_queue ha]
            exact hw.1
          exact k4 (enqueue_cell_wfe
            (e := ⟨st1, e.constraints, e.watchers, e.branches + 1⟩)
            ⟨hq2, hw.2.1, hw.2.2⟩ i)
        · rename_i e2 hrec
          simp only [Prod.mk.injEq] at h
          obtain ⟨k1, k2, k3, k4⟩ := ih _ _ _ hrec (by intro _ _ _ _ heq; cases heq)
          have hstep : SLike e.state st1 := (narrow_nlike ha).plike.slike
          rw [← h.2]
          refine ⟨k1, k2, hstep.strans ((SLike.squeue_change _).strans k3), ?_⟩
          intro hw
          have hq2 : ∀ ci ∈ st1.queue, ci < e.constraints.length := by
            rw [narrow_queue ha]
            exact hw.1
          exact k4 (enqueue_cell_wfe
            (e := ⟨st1, e.constraints, e.watchers, e.branches + 1⟩)
            ⟨hq2, hw.2.1, hw.2.2⟩ i)
        · rename_i r2 e2 hne1 hne2 hne3 hrec
          obtain ⟨k1, k2, k3, k4⟩ := ih _ _ _ hrec (by intro _ _ _ _ heq; cases heq)
          have hstep : SLike e.state st1 := (narrow_nlike ha).plike.slike
          have hsub : SLike e.state e2.state :=
            hstep.strans ((SLike.squeue_change _).strans k3)
          have hback : e2.state.backtrack_to tl =
              { e.state with queue := e2.state.queue } := by
            rw [htl]
            exact backtrack_restores hsub
          obtain ⟨m1, m2, m3, m4⟩ := ih _ _ _ h
            (by
              intro i2 tl2 ds2 e3 heq
              injection heq with h1 h2 h3 h4
              rw [← h2, ← h4]
              show tl = (e2.state.backtrack_to tl).trail.length
              rw [hback, htl])
          have hbts : SLike e.state (e2.state.backtrack_to tl) := by
            rw [hback]
            exact SLike.squeue_change _
          refine ⟨m1.trans k1, m2.trans k2, hbts.strans m3, ?_⟩
          intro hw
          refine m4 ?_
          have hq2 : ∀ ci ∈ st1.queue, ci < e.constraints.length := by
            rw [narrow_queue ha]
            exact hw.1
          have hw2 : WfE e2 := k4 (enqueue_cell_wfe
            (e := ⟨st1, e.constraints, e.watchers, e.branches + 1⟩)
            ⟨hq2, hw.2.1, hw.2.2⟩ i)
          show WfE { e2 with state := e2.state.backtrack_to tl }
          refine ⟨?_, hw2.2.1, hw2.2.2⟩
          intro ci hci
          refine hw2.1 ci ?_
          have hqq : (e2.state.backtrack_to tl).queue = e2.state.queue := by
            rw [hback]
          rw [hqq] at hci
          exact hci
      · rename_i st1 ha
        have hst1 : st1 = e.state := narrow_not_changed ha (by simp)
        have hbt : st1.backtrack_to tl = e.state := by
          rw [hst1, htl]
          exact backtrack_to_of_le (Nat.le_refl _)
        obtain ⟨m1, m2, m3, m4⟩ := ih _ _ _ h
          (by
            intro i2 tl2 ds2 e3 heq
            injection heq with h1 h2 h3 h4
            rw [← h2, ← h4]
            show tl = (st1.backtrack_to tl).trail.length
            rw [hbt, htl])
        have hbts : SLike e.state (st1.backtrack_to tl) := by
          rw [hbt]
          exact SLike.srefl _
        refine ⟨m1, m2, hbts.strans m3, ?_⟩
        intro hw
        refine m4 ?_
        show WfE { e with branches := e.branches + 1, state := st1.backtrack_to tl }
        refine ⟨?_, hw.2.1, hw.2.2⟩
        intro ci hci
        refine hw.1 ci ?_
        have hqq : (st1.backtrack_to tl).queue = e.state.queue := by
          rw [hbt]
        rw [hqq] at hci
        exact hci

theorem searchStep_no_panic : ∀ (f : Nat) (fr : Frame) (r : SRes) (e' : Engine),
    searchStep f fr = (r, e') →
    (∀ i tl ds e, fr = .branch i tl ds e → tl = e.state.trail.length) →
    WfE fr.engine → r ≠ .panicked := by
  intro f
  induction f with
  | zero =>
    intro fr r e' h hinv hwf
    simp only [searchStep, Prod.mk.injEq] at h
    rw [← h.1]
    simp
  | succ f ih =>
    intro fr r e' h hinv hwf
    match fr with
    | .enter e =>
      simp only [searchStep] at h
      have hwf2 : WfE (if e.state.trail.isEmpty && e.state.queue.isEmpty then
          e.enqueue_all else e) := by
        split
        · exact enqueue_all_wfe hwf
        · exact hwf
      split at h
      · rename_i r2 e1 hL
        simp only [Prod.mk.injEq] at h
        rw [← h.1]
        intro hcon
        subst hcon
        exact absurd (congrArg Prod.fst hL)
          (by simpa using searchLoop_no_panic _ _ hwf2)
      · rename_i e1 hL
        have hwf3 : WfE e1 := (searchLoop_frame _ _ _ _ hL).2.2.2.2 hwf2
        split at h
        · simp only [Prod.mk.injEq] at h
          rw [← h.1]
          simp
        · split at h
          · simp only [Prod.mk.injEq] at h
            rw [← h.1]
            simp
          · split at h
            · simp only [Prod.mk.injEq] at h
              rw [← h.1]
              simp
            · rename_i i hmrv
              exact ih _ _ _ h
                (by
                  intro i2 tl2 ds2 e2 heq
                  injection heq with h1 h2 h3 h4
                  rw [← h2, ← h4]) hwf3
    | .branch i tl [] e =>
      simp only [searchStep, Prod.mk.injEq] at h
      rw [← h.1]
      simp
    | .branch i tl (d :: ds) e =>
      have htl : tl = e.state.trail.length := hinv i tl (d :: ds) e rfl
      simp only [searchStep] at h
      split at h
      · rename_i c st1 ha
        have hq2 : ∀ ci ∈ st1.queue, ci < e.constraints.length := by
          rw [narrow_queue ha]
          exact hwf.1
        have hwfe1 : WfE (Engine.enqueue_cell_constraints
            ⟨st1, e.constraints, e.watchers, e.branches + 1⟩ i) :=
          enqueue_cell_wfe (e := ⟨st1, e.constraints, e.watchers, e.branches + 1⟩)
            ⟨hq2, hwf.2.1, hwf.2.2⟩ i
        split at h
        · rename_i e2 hrec
          simp only [Prod.mk.injEq] at h
          rw [← h.1]
          simp
        · rename_i e2 hrec
          simp only [Prod.mk.injEq] at h
          rw [← h.1]
          simp
        · rename_i e2 hrec
          exact absurd rfl (ih _ _ _ hrec (by intro _ _ _ _ heq; cases heq) hwfe1)
        · rename_i r2 e2 hne1 hne2 hne3 hrec
          obtain ⟨k1, k2, k3, k4⟩ :=
            searchStep_frame _ _ _ _ hrec (by intro _ _ _ _ heq; cases heq)
          have hsub : SLike e.state e2.state :=
            ((narrow_nlike ha).plike.slike).strans ((SLike.squeue_change _).strans k3)
          have hback : e2.state.backtrack_to tl =
              { e.state with queue := e2.state.queue } := by
            rw [htl]
            exact backtrack_restores hsub
          refine ih _ _ _ h (by
              intro i2 tl2 ds2 e3 heq
              injection heq with h1 h2 h3 h4
              rw [← h2, ← h4]
              show tl = (e2.state.backtrack_to tl).trail.length
              rw [hback, htl]) ?_
          have hw2 : WfE e2 := k4 hwfe1
          show WfE { e2 with state := e2.state.backtrack_to tl }
          refine ⟨?_, hw2.2.1, hw2.2.2⟩
          intro ci hci
          refine hw2.1 ci ?_
          have hqq : (e2.state.backtrack_to tl).queue = e2.state.queue := by
            rw [hback]
          rw [hqq] at hci
          exact hci
      · rename_i st1 ha
        have hst1 : st1 = e.state := narrow_not_changed ha (by simp)
        have hbt : st1.backtrack_to tl = e.state := by
          rw [hst1, htl]
          exact backtrack_to_of_le (Nat.le_refl _)
        refine ih _ _ _ h (by
            intro i2 tl2 ds2 e3 heq
            injection heq with h1 h2 h3 h4
            rw [← h2, ← h4]
            show tl = (st1.backtrack_to tl).trail.length
            rw [hbt, htl]) ?_
        show WfE { e with branches := e.branches + 1, state := st1.backtrack_to tl }
        refine ⟨?_, hwf.2.1, hwf.2.2⟩
        intro ci hci
        refine hwf.1 ci ?_
        have hqq : (st1.backtrack_to tl).queue = e.state.queue := by
          rw [hbt]
        rw [hqq] at hci
        exact hci

/-- A board on which the zero-domain scan failed, whose `u16` domains are
well formed and number 81, and whose `choose_mrv` found no branchable
cell, is fully solved. -/
theorem solved_of_mrv_none {e : Engine} (hz : ∀ m ∈ e.state.domains, m ≠ 0)
    (hwfd : ∀ m ∈ e.state.domains, m < 65536)
    (hlen : e.state.domains.length = NN) (hmrv : e.choose_mrv = none) :
    e.solved = true := by
  have hnone := (choose_mrv_contract e).2.1.mp hmrv
  unfold Engine.solved
  rw [List.all_eq_true]
  intro m hm
  rw [beq_iff_eq]
  rcases List.mem_iff_getElem.mp hm with ⟨j, hj, hjm⟩
  have hjNN : j < NN := by omega
  have hget : e.state.domains.getD j 0 = m := by
    rw [List.getD_eq_getElem _ _ hj, hjm]
  have h1 := hnone j hjNN
  rw [hget] at h1
  have h2 := count_ones_pos (hz m hm) (hwfd m hm)
  omega

theorem searchStep_res : ∀ (f : Nat) (fr : Frame) (r : SRes) (e' : Engine),
    searchStep f fr = (r, e') →
    (∀ i tl ds e, fr = .branch i tl ds e → tl = e.state.trail.length) →
    r ≠ .ret .contradiction ∧
    (GoodS fr.engine.state → fr.engine.state.domains.length = NN →
      r = .ret (.ok true) → e'.solved = true) := by
  intro f
  induction f with
  | zero =>
    intro fr r e' h hinv
    simp only [searchStep, Prod.mk.injEq] at h
    rw [← h.1]
    exact ⟨by simp, fun _ _ hcon => by cases hcon⟩
  | succ f ih =>
    intro fr r e' h hinv
    match fr with
    | .enter e =>
      simp only [searchStep] at h
      have hstate : SLike e.state
          (if e.state.trail.isEmpty && e.state.queue.isEmpty then
            e.enqueue_all else e).state := by
        split
        · exact SLike.squeue_change _
        · exact SLike.srefl _
      split at h
      · rename_i r2 e1 hL
        simp only [Prod.mk.injEq] at h
        rcases searchLoop_cases _ _ _ _ hL with hb | hok | hf | hpan | hfuel
        · cases hb
        · injection hok.1 with hok1
          rw [← h.1, hok1]
          refine ⟨by simp, fun _ _ _ => ?_⟩
          rw [← h.2]
          exact hok.2
        · injection hf with hf1
          rw [← h.1, hf1]
          exact ⟨by simp, fun _ _ hcon => by cases hcon⟩
        · injection hpan with hpan1
          rw [← h.1, hpan1]
          exact ⟨by simp, fun _ _ hcon => by cases hcon⟩
        · injection hfuel with hfuel1
          rw [← h.1, hfuel1]
          exact ⟨by simp, fun _ _ hcon => by cases hcon⟩
      · rename_i e1 hL
        obtain ⟨g1, g2, g3, g4, g5⟩ := searchLoop_frame _ _ _ _ hL
        have hcomp : SLike e.state e1.state := hstate.strans g4.slike
        split at h
        · rename_i hsol
          simp only [Prod.mk.injEq] at h
          rw [← h.1]
          refine ⟨by simp, fun _ _ _ => ?_⟩
          rw [← h.2]
          exact hsol
        · rename_i hsol
          split at h
          · simp only [Prod.mk.injEq] at h
            rw [← h.1]
            exact ⟨by simp, fun _ _ hcon => by cases hcon⟩
          · rename_i hzero
            split at h
            · rename_i hmrv
              simp only [Prod.mk.injEq] at h
              rw [← h.1]
              refine ⟨by simp, fun hg hlen _ => ?_⟩
              rw [← h.2]
              have hg1 : GoodS e1.state := hcomp.good hg
              have hlen1 : e1.state.domains.length = NN := by
                rw [hcomp.domlen]
                exact hlen
              have hz : ∀ m ∈ e1.state.domains, m ≠ 0 := by
                intro m hm hm0
                apply hzero
                rw [List.any_eq_true]
                exact ⟨m, hm, by rw [hm0]; simp⟩
              exact solved_of_mrv_none hz (fun m hm => (hg1.1 m hm).2) hlen1 hmrv
            · rename_i i hmrv
              obtain ⟨k1, k2⟩ := ih _ _ _ h
                (by
                  intro i2 tl2 ds2 e2 heq
                  injection heq with h1 h2 h3 h4
                  rw [← h2, ← h4])
              refine ⟨k1, fun hg hlen hr => ?_⟩
              refine k2 (hcomp.good hg) ?_ hr
              show e1.state.domains.length = NN
              rw [hcomp.domlen]
              exact hlen
    | .branch i tl [] e =>
      simp only [searchStep, Prod.mk.injEq] at h
      rw [← h.1]
      exact ⟨by simp, fun _ _ hcon => by cases hcon⟩
    | .branch i tl (d :: ds) e =>
      have htl : tl = e.state.trail.length := hinv i tl (d :: ds) e rfl
      simp only [searchStep] at h
      split at h
      · rename_i c st1 ha
        have hst1g : SLike e.state st1 := (narrow_nlike ha).plike.slike
        split at h
        · rename_i e2 hrec
          simp only [Prod.mk.injEq] at h
          obtain ⟨k1, k2⟩ := ih _ _ _ hrec (by intro _ _ _ _ heq; cases heq)
          rw [← h.1]
          refine ⟨by simp, fun hg hlen _ => ?_⟩
          rw [← h.2]
          refine k2 ?_ ?_ rfl
          · exact (hst1g.strans (SLike.squeue_change _)).good hg
          · show st1.domains.length = NN
            rw [hst1g.domlen]
            exact hlen
        · rename_i e2 hrec
          simp only [Prod.mk.injEq] at h
          rw [← h.1]
          exact ⟨by simp, fun _ _ hcon => by cases hcon⟩
        · rename_i e2 hrec
          simp only [Prod.mk.injEq] at h
          rw [← h.1]
          exact ⟨by simp, fun _ _ hcon => by cases hcon⟩
        · rename_i r2 e2 hne1 hne2 hne3 hrec
          obtain ⟨k1, k2, k3, k4⟩ :=
            searchStep_frame _ _ _ _ hrec (by intro _ _ _ _ heq; cases heq)
          have hsub : SLike e.state e2.state :=
            hst1g.strans ((SLike.squeue_change _).strans k3)
          have hback : e2.state.backtrack_to tl =
              { e.state with queue := e2.state.queue } := by
            rw [htl]
            exact backtrack_restores hsub
          obtain ⟨m1, m2⟩ := ih _ _ _ h
            (by
              intro i2 tl2 ds2 e3 heq
              injection heq with h1 h2 h3 h4
              rw [← h2, ← h4]
              show tl = (e2.state.backtrack_to tl).trail.length
              rw [hback, htl])
          refine ⟨m1, fun hg hlen hr => ?_⟩
          refine m2 ?_ ?_ hr
          · show GoodS (e2.state.backtrack_to tl)
            rw [hback]
            exact (SLike.squeue_change _).good hg
          · show (e2.state.backtrack_to tl).domains.length = NN
            rw [hback]
            exact hlen
      · rename_i st1 ha
        have hst1 : st1 = e.state := narrow_not_changed ha (by simp)
        have hbt : st1.backtrack_to tl = e.state := by
          rw [hst1, htl]
          exact backtrack_to_of_le (Nat.le_refl _)
        obtain ⟨m1, m2⟩ := ih _ _ _ h
          (by
            intro i2 tl2 ds2 e3 heq
            injection heq with h1 h2 h3 h4
            rw [← h2, ← h4]
            show tl = (st1.backtrack_to tl).trail.length
            rw [hbt, htl])
        refine ⟨m1, fun hg hlen hr => ?_⟩
        refine m2 ?_ ?_ hr
        · show GoodS (st1.backtrack_to tl)
          rw [hbt]
          exact hg
        · show (st1.backtrack_to tl).domains.length = NN
          rw [hbt]
          exact hlen

theorem count_ones_shift_one {d : Nat} (hd : d < 16) : count_ones (1 <<< d) = 1 := by
  interval_cases d <;> decide

theorem searchStep_fuel : ∀ (v : Nat),
    (∀ (f : Nat) (e : Engine), totalVal e.state ≤ v →
      20 * totalVal e.state + 20 ≤ f → (searchStep f (.enter e)).1 ≠ .fuelOut) ∧
    (∀ (f : Nat) (i tl : Nat) (ds : List Nat) (e : Engine), totalVal e.state ≤ v →
      tl = e.state.trail.length →
      1 < count_ones (e.state.domains.getD i 0) →
      (∀ d ∈ ds, d < 16 ∧ (e.state.domains.getD i 0).testBit d = true) →
      20 * totalVal e.state + ds.length + 1 ≤ f →
      (searchStep f (.branch i tl ds e)).1 ≠ .fuelOut) := by
  intro v
  induction v using Nat.strong_induction_on with
  | _ v IH =>
  have hbranch : ∀ (ds : List Nat) (f : Nat) (i tl : Nat) (e : Engine),
      totalVal e.state ≤ v → tl = e.state.trail.length →
      1 < count_ones (e.state.domains.getD i 0) →
      (∀ d ∈ ds, d < 16 ∧ (e.state.domains.getD i 0).testBit d = true) →
      20 * totalVal e.state + ds.length + 1 ≤ f →
      (searchStep f (.branch i tl ds e)).1 ≠ .fuelOut := by
    intro ds
    induction ds with
    | nil =>
      intro f i tl e hv htl hcnt hds hf
      match f with
      | 0 => omega
      | f + 1 => simp [searchStep]
    | cons d ds ihds =>
      intro f i tl e hv htl hcnt hds hf
      match f with
      | 0 => omega
      | f + 1 =>
        have hd16 := hds d (List.mem_cons_self _ _)
        simp only [searchStep]
        split
        · rename_i c st1 ha
          have hc : c = true := by
            cases c
            · exfalso
              refine narrow_rec ha (fun h0 hr hst => by cases hr)
                (fun h0 hne hr hst => by simp at hr) (fun h0 heq hr hst => ?_)
              rcases and_pow2_cases (e.state.domains.getD i 0) d with hz | hbit
              · exact h0 hz
              · have hold : e.state.domains.getD i 0 = 1 <<< d := by
                  rw [← heq]
                  exact hbit
                rw [hold, count_ones_shift_one hd16.1] at hcnt
                omega
            · rfl
          subst hc
          have htv1 : totalVal st1 < totalVal e.state := narrow_changed_lt ha
          split
          · simp
          · rename_i e2 hrec
            exfalso
            have hIH := (IH (totalVal st1) (Nat.lt_of_lt_of_le htv1 hv)).1 f
              (Engine.enqueue_cell_constraints
                ⟨st1, e.constraints, e.watchers, e.branches + 1⟩ i)
              (Nat.le_refl _) (by
                show 20 * totalVal st1 + 20 ≤ f
                omega)
            exact hIH (by rw [hrec])
          · simp
          · rename_i r2 e2 hne1 hne2 hne3 hrec
            obtain ⟨k1, k2, k3, k4⟩ :=
              searchStep_frame _ _ _ _ hrec (by intro _ _ _ _ heq; cases heq)
            have hsub : SLike e.state e2.state :=
              ((narrow_nlike ha).plike.slike).strans ((SLike.squeue_change _).strans k3)
            have hback : e2.state.backtrack_to tl =
                { e.state with queue := e2.state.queue } := by
              rw [htl]
              exact backtrack_restores hsub
            refine ihds f i tl _ ?_ ?_ ?_ ?_ ?_
            · show totalVal (e2.state.backtrack_to tl) ≤ v
              rw [hback]
              exact hv
            · show tl = (e2.state.backtrack_to tl).trail.length
              rw [hback, htl]
            · show 1 < count_ones ((e2.state.backtrack_to tl).domains.getD i 0)
              rw [hback]
              exact hcnt
            · intro d2 hd2
              show d2 < 16 ∧ ((e2.state.backtrack_to tl).domains.getD i 0).testBit d2 = true
              rw [hback]
              exact hds d2 (List.mem_cons_of_mem _ hd2)
            · show 20 * totalVal (e2.state.backtrack_to tl) + ds.length + 1 ≤ f
              rw [hback]
              show 20 * totalVal e.state + ds.length + 1 ≤ f
              simp only [List.length_cons] at hf
              omega
        · rename_i st1 ha
          have hst1 : st1 = e.state := narrow_not_changed ha (by simp)
          have hbt : st1.backtrack_to tl = e.state := by
            rw [hst1, htl]
            exact backtrack_to_of_le (Nat.le_refl _)
          refine ihds f i tl _ ?_ ?_ ?_ ?_ ?_
          · show totalVal (st1.backtrack_to tl) ≤ v
            rw [hbt]
            exact hv
          · show tl = (st1.backtrack_to tl).trail.length
            rw [hbt, htl]
          · show 1 < count_ones ((st1.backtrack_to tl).domains.getD i 0)
            rw [hbt]
            exact hcnt
          · intro d2 hd2
            show d2 < 16 ∧ ((st1.backtrack_to tl).domains.getD i 0).testBit d2 = true
            rw [hbt]
            exact hds d2 (List.mem_cons_of_mem _ hd2)
          · show 20 * totalVal (st1.backtrack_to tl) + ds.length + 1 ≤ f
            rw [hbt]
            simp only [List.length_cons] at hf
            omega
  refine ⟨?_, fun f i tl ds e => hbranch ds f i tl e⟩
  intro f e hv hf
  match f with
  | 0 => omega
  | f + 1 =>
    simp only [searchStep]
    have htv2 : totalVal (if e.state.trail.isEmpty && e.state.queue.isEmpty then
        e.enqueue_all else e).state = totalVal e.state := by
      split
      · rfl
      · rfl
    split
    · rename_i r2 e1 hL
      intro hcon
      have hnf := searchLoop_no_fuelOut (f + 1)
        (if e.state.trail.isEmpty && e.state.queue.isEmpty then e.enqueue_all else e)
        (by omega)
      rw [hL] at hnf
      simp only at hnf
      exact hnf (congrArg LOut.ret hcon)
    · rename_i e1 hL
      obtain ⟨g1, g2, g3, g4, g5⟩ := searchLoop_frame _ _ _ _ hL
      have htve1 : totalVal e1.state ≤ totalVal e.state := by
        have := g4.tv
        omega
      split
      · simp
      · split
        · simp
        · split
          · simp
          · rename_i i hmrv
            have hcnt := ((choose_mrv_contract e1).1 i hmrv).1
            refine hbranch _ f i _ e1 (by omega) rfl hcnt ?_ ?_
            · intro d hd
              rw [List.mem_filter] at hd
              exact ⟨List.mem_range.mp hd.1, hd.2⟩
            · have hlen16 : ((List.range 16).filter
                  (fun d => (e1.state.domains.getD i 0).testBit d)).length ≤ 16 := by
                have := List.length_filter_le
                  (fun d => (e1.state.domains.getD i 0).testBit d) (List.range 16)
                simpa using this
              omega

theorem search_no_fuelOut (e : Engine) : (e.search).1 ≠ .fuelOut :=
  (searchStep_fuel (totalVal e.state)).1 (searchBound e) e (Nat.le_refl _) (Nat.le_refl _)

/-! ### Claim C8: termination of `Engine::search` -/

/-- C8 counterexample: on an engine whose registered constraints include a
`Thermo`, `Engine::search` panics (the `todo!()` aborts the process), so it
returns neither a success nor an unsatisfiable verdict. -/
theorem search_thermo_panics : (thermoEngine.search).1 = .panicked := by decide

/-- C8 (amended): on any engine whose registered constraints are the
implemented ones (no `Thermo`) and whose queue and watcher entries index
into the constraint list, `Engine::search` terminates — the explicit fuel
`searchBound` is sufficient — and returns `Ok(true)` or `Ok(false)`,
never an error, a panic, or fuel exhaustion. -/
theorem search_termination (e : Engine) (hwf : WfE e) :
    ∃ b : Bool, (e.search).1 = .ret (.ok b) := by
  obtain ⟨r, e', h⟩ : ∃ r e', searchStep (searchBound e) (.enter e) = (r, e') := ⟨_, _, rfl⟩
  have hfuel : r ≠ .fuelOut := by
    have hnf := (searchStep_fuel (totalVal e.state)).1 (searchBound e) e
      (Nat.le_refl _) (Nat.le_refl _)
    rw [h] at hnf
    exact hnf
  have hpan : r ≠ .panicked :=
    searchStep_no_panic _ _ _ _ h (fun _ _ _ _ hq => by cases hq) hwf
  have hcon : r ≠ .ret .contradiction :=
    (searchStep_res _ _ _ _ h (fun _ _ _ _ hq => by cases hq)).1
  have hse : e.search = (r, e') := h
  rw [hse]
  cases r with
  | ret nr =>
    cases nr with
    | ok b => exact ⟨b, rfl⟩
    | contradiction => exact absurd rfl hcon
  | panicked => exact absurd rfl hpan
  | fuelOut => exact absurd rfl hfuel

theorem search_termination_witness :
    WfE singEngine ∧ ∃ b : Bool, (singEngine.search).1 = .ret (.ok b) := by
  have hwf : WfE singEngine :=
    ⟨fun ci hci => absurd hci (List.not_mem_nil ci),
     fun c hc => absurd hc (List.not_mem_nil c),
     fun l hl ci hci => absurd (List.eq_of_mem_replicate hl ▸ hci) (List.not_mem_nil ci)⟩
  exact ⟨hwf, search_termination singEngine hwf⟩

/-! ### Claim C10: `Engine::search` absorbs contradictions -/

/-- C10: on any engine whose board has the `u16[81]` shape of the source
(81 domains, each a non-zero 16-bit value, as do the trail's saved
values), `Engine::search` never returns the error value `Err(Contradiction)`
— every contradiction is absorbed by abandoning the branch and restoring
the checkpoint — and whenever it returns `Ok(true)` the final board is
fully singleton (`solved`). -/
theorem search_no_error (e : Engine) (hg : GoodS e.state)
    (hlen : e.state.domains.length = NN) :
    (e.search).1 ≠ .ret .contradiction ∧
    ((e.search).1 = .ret (.ok true) → (e.search).2.solved = true) := by
  obtain ⟨r, e', h⟩ : ∃ r e', searchStep (searchBound e) (.enter e) = (r, e') := ⟨_, _, rfl⟩
  have hres := searchStep_res _ _ _ _ h (fun _ _ _ _ hq => by cases hq)
  have hse : e.search = (r, e') := h
  rw [hse]
  exact ⟨hres.1, fun ht => hres.2 hg hlen ht⟩

theorem search_no_error_witness :
    GoodS singEngine.state ∧ singEngine.state.domains.length = NN ∧
      ((singEngine.search).1 ≠ .ret .contradiction ∧
       ((singEngine.search).1 = .ret (.ok true) →
         (singEngine.search).2.solved = true)) := by
  have hg : GoodS singEngine.state := by
    refine ⟨?_, ?_⟩
    · intro d hd
      simp only [singEngine, singState] at hd
      rw [List.eq_of_mem_replicate hd]
      decide
    · intro p hp
      simp only [singEngine, singState] at hp
      exact absurd hp (List.not_mem_nil p)
  exact ⟨hg, rfl, search_no_error singEngine hg rfl⟩

/-! ### Claim C5: the non-empty-domain invariant -/

theorem btAux_good : ∀ (tl : Nat) (tr : List (CellIx × Domain)) (ds : List Domain),
    (∀ d ∈ ds, d ≠ 0 ∧ d < 65536) → (∀ p ∈ tr, p.2 ≠ 0 ∧ p.2 < 65536) →
    (∀ p ∈ (btAux tl tr ds).1, p.2 ≠ 0 ∧ p.2 < 65536) ∧
    (∀ d ∈ (btAux tl tr ds).2, d ≠ 0 ∧ d < 65536) := by
  intro tl tr
  induction tr with
  | nil =>
    intro ds hds htr
    exact ⟨fun p hp => absurd hp (List.not_mem_nil p), hds⟩
  | cons q rest ih =>
    obtain ⟨i, old⟩ := q
    intro ds hds htr
    simp only [btAux]
    split
    · refine ih _ ?_ (fun p hp => htr p (List.mem_cons_of_mem _ hp))
      intro d hd
      rcases mem_set_elim hd with rfl | hd2
      · exact htr (i, d) (List.mem_cons_self _ _)
      · exact hds d hd2
    · exact ⟨htr, hds⟩

theorem backtrack_good {st : State} (h : GoodS st) (tl : Nat) :
    GoodS (st.backtrack_to tl) := by
  have hb := btAux_good tl st.trail st.domains h.1 h.2
  exact ⟨hb.2, hb.1⟩

/-- The states reachable from a fresh board through the public operations
of the core: `narrow`, `assign`, `backtrack_to`, a single constraint's
propagation, the engine's propagation drain, and the full search. -/
inductive Reachable : State → Prop
  | fresh : Reachable State.new
  | narrow (st : State) (i : CellIx) (mask : Domain) :
      Reachable st → Reachable (st.narrow i mask).2
  | assign (st : State) (i : CellIx) (single : Domain) :
      Reachable st → Reachable (st.assign i single).2
  | backtrack (st : State) (tl : Nat) :
      Reachable st → Reachable (st.backtrack_to tl)
  | cprop (c : Constraint) (st : State) :
      Reachable st → Reachable (c.propagate st).2
  | eprop (e : Engine) :
      Reachable e.state → Reachable (e.propagate).2.state
  | search (e : Engine) :
      Reachable e.state → Reachable (e.search).2.state

theorem reachable_good : ∀ {st : State}, Reachable st → GoodS st := by
  intro st h
  induction h with
  | fresh =>
    refine ⟨?_, ?_⟩
    · intro d hd
      simp only [State.new] at hd
      rw [List.eq_of_mem_replicate hd]
      decide
    · intro p hp
      simp only [State.new] at hp
      exact absurd hp (List.not_mem_nil p)
  | narrow st i mask _ ih =>
    obtain ⟨r, st1, hr⟩ : ∃ r st1, st.narrow i mask = (r, st1) := ⟨_, _, rfl⟩
    rw [hr]
    exact (narrow_nlike hr).good ih
  | assign st i single _ ih =>
    obtain ⟨r, st1, hr⟩ : ∃ r st1, st.narrow i single = (r, st1) := ⟨_, _, rfl⟩
    have hr2 : st.assign i single = (r, st1) := hr
    rw [hr2]
    exact (narrow_nlike hr).good ih
  | backtrack st tl _ ih => exact backtrack_good ih tl
  | cprop c st _ ih =>
    obtain ⟨r, st1, hr⟩ : ∃ r st1, c.propagate st = (r, st1) := ⟨_, _, rfl⟩
    rw [hr]
    exact (cprop_nlike hr).good ih
  | eprop e _ ih =>
    obtain ⟨r, e1, hr⟩ : ∃ r e1, e.propagate = (r, e1) := ⟨_, _, rfl⟩
    rw [hr]
    exact (engine_propagate_frame hr).2.2.2.good ih
  | search e _ ih =>
    obtain ⟨r, e1, hr⟩ : ∃ r e1,
        searchStep (searchBound e) (.enter e) = (r, e1) := ⟨_, _, rfl⟩
    have hr2 : e.search = (r, e1) := hr
    rw [hr2]
    exact (searchStep_frame _ _ _ _ hr (fun _ _ _ _ hq => by cases hq)).2.2.1.good ih

/-- C5: in every state reachable from a fresh board through the public
operations (narrow, assign, backtrack_to, constraint propagation, engine
propagation, search), every stored domain is non-empty: a would-be empty
intersection raises `Contradiction` in `narrow` before being written back,
and backtracking only rewrites saved — hence non-empty — values. -/
theorem reachable_domains_nonempty (st : State) (h : Reachable st)
    (j : Nat) (hj : j < st.domains.length) : st.domains.getD j 0 ≠ 0 := by
  have hg := reachable_good h
  rw [List.getD_eq_getElem _ _ hj]
  exact (hg.1 _ (List.getElem_mem hj)).1

theorem reachable_domains_nonempty_witness :
    (State.new.narrow 0 (1 <<< 6)).2.domains.getD 0 0 ≠ 0 :=
  reachable_domains_nonempty _
    (Reachable.narrow State.new 0 (1 <<< 6) Reachable.fresh) 0 (by decide)

end Makudoku
